/-
Verification of the content-navigation core of a Moodle terminal client.

The definitions below are shallow embeddings of the TypeScript sources:
  * fuzzySearch.ts        (fuzzyScore)
  * courseSearch.ts       (filterCoursesByFuzzyQuery)
  * courseContentSearch.ts (filterCourseContentByFuzzyQuery)
  * CoursePage.tsx        (buildCourseTreeRows and helpers)
  * Dashboard.tsx         (selection/scroll reconciliation, jump-to-row)

JavaScript numbers are modelled as rationals (all scores are exact multiples
of 1/100), strings as Lean `String`, and `undefined`-able fields as `Option`.
-/
import Mathlib

namespace MoodleTui

/-! ### JavaScript string primitives -/

/-- The character set treated as whitespace by JavaScript's `String.prototype.trim`
(ECMA WhiteSpace and LineTerminator code points). -/
def jsIsWhitespace (c : Char) : Bool :=
  [9, 10, 11, 12, 13, 32, 160, 5760, 8192, 8193, 8194, 8195, 8196, 8197, 8198,
   8199, 8200, 8201, 8202, 8232, 8233, 8239, 8287, 12288, 65279].contains c.toNat

/-- Model of `String.prototype.trim`: drop leading and trailing whitespace. -/
def jsTrim (s : String) : String :=
  ⟨((s.data.dropWhile jsIsWhitespace).reverse.dropWhile jsIsWhitespace).reverse⟩

/-- Model of `String.prototype.toLowerCase`. -/
def toLowerStr (s : String) : String := ⟨s.data.map Char.toLower⟩

/-- Model of the JavaScript falsy-string choice `a || b` where `a` is a
possibly-`undefined` string: an absent or empty `a` falls back to `b`. -/
def jsOrStr (a : Option String) (b : String) : String :=
  match a with
  | none => b
  | some s => if s = "" then b else s

/-- Model of `a || b` for two possibly-`undefined` strings, with a falsy
result collapsed to `none`. -/
def jsOrOptStr (a b : Option String) : Option String :=
  match a with
  | some s => if s = "" then (match b with | some t => if t = "" then none else some t | none => none) else some s
  | none => match b with | some t => if t = "" then none else some t | none => none

/-! ### Decimal rendering of numbers (template-literal interpolation)

Row ids are built with template literals such as the string
`module:S:M` for section id S and module id M, where the numbers are
rendered in decimal.  `natKey` models that rendering. -/

/-- The decimal digit character for `d` (`d < 10`). -/
def digitChar (d : Nat) : Char :=
  if d = 0 then '0' else if d = 1 then '1' else if d = 2 then '2'
  else if d = 3 then '3' else if d = 4 then '4' else if d = 5 then '5'
  else if d = 6 then '6' else if d = 7 then '7' else if d = 8 then '8'
  else '9'

/-- Decimal value of a digit character (left inverse of `digitChar`). -/
def digitVal (c : Char) : Nat :=
  if c = '0' then 0 else if c = '1' then 1 else if c = '2' then 2
  else if c = '3' then 3 else if c = '4' then 4 else if c = '5' then 5
  else if c = '6' then 6 else if c = '7' then 7 else if c = '8' then 8
  else if c = '9' then 9 else 10

/-- Fueled accumulator loop producing the decimal digits of `n` in front of `acc`. -/
def natCharsAux : Nat → Nat → List Char → List Char
  | 0, _, acc => acc
  | fuel + 1, n, acc =>
    let acc' := digitChar (n % 10) :: acc
    if n < 10 then acc' else natCharsAux fuel (n / 10) acc'

/-- The decimal digit characters of `n`. -/
def natChars (n : Nat) : List Char := natCharsAux (n + 1) n []

/-- Decimal rendering of a natural number, as interpolated by a template literal. -/
def natKey (n : Nat) : String := ⟨natChars n⟩

/-- Decode a digit string back to its value. -/
def strVal (cs : List Char) : Nat := cs.foldl (fun a c => 10 * a + digitVal c) 0

theorem natCharsAux_eq (n : Nat) :
    ∀ fuel acc, n < fuel → natCharsAux fuel n acc = natChars n ++ acc := by
  induction n using Nat.strong_induction_on with
  | _ n ih =>
    intro fuel acc hf
    match fuel, hf with
    | fuel + 1, hf =>
      by_cases h10 : n < 10
      · simp [natCharsAux, natChars, h10]
      · have hdiv : n / 10 < n := Nat.div_lt_self (by omega) (by omega)
        have l1 : natCharsAux (fuel + 1) n acc
            = natCharsAux fuel (n / 10) (digitChar (n % 10) :: acc) := by
          simp only [natCharsAux]
          rw [if_neg h10]
        have l2 : natChars n = natChars (n / 10) ++ [digitChar (n % 10)] := by
          show natCharsAux (n + 1) n [] = _
          have step : natCharsAux (n + 1) n []
              = natCharsAux n (n / 10) (digitChar (n % 10) :: []) := by
            simp only [natCharsAux]
            rw [if_neg h10]
          rw [step, ih (n / 10) hdiv n _ (by omega)]
        rw [l1, ih (n / 10) hdiv fuel _ (by omega), l2]
        simp

theorem natChars_decomp (n : Nat) (h : 10 ≤ n) :
    natChars n = natChars (n / 10) ++ [digitChar (n % 10)] := by
  have hdiv : n / 10 < n := Nat.div_lt_self (by omega) (by omega)
  have step : natCharsAux (n + 1) n []
      = natCharsAux n (n / 10) (digitChar (n % 10) :: []) := by
    simp only [natCharsAux]
    rw [if_neg (by omega)]
  rw [natChars, step, natCharsAux_eq (n / 10) n _ (by omega)]

theorem digitVal_digitChar (d : Nat) (h : d < 10) : digitVal (digitChar d) = d := by
  interval_cases d <;> rfl

theorem strVal_natChars (n : Nat) : strVal (natChars n) = n := by
  induction n using Nat.strong_induction_on with
  | _ n ih =>
    by_cases h10 : n < 10
    · have : natChars n = [digitChar (n % 10)] := by
        rw [natChars, natCharsAux, if_pos h10]
      rw [this, strVal]
      simp [digitVal_digitChar (n % 10) (Nat.mod_lt _ (by omega))]
      omega
    · rw [natChars_decomp n (by omega), strVal, List.foldl_append]
      have := ih (n / 10) (Nat.div_lt_self (by omega) (by omega))
      rw [strVal] at this
      simp [this, digitVal_digitChar (n % 10) (Nat.mod_lt _ (by omega))]
      omega

theorem natChars_injective : Function.Injective natChars := by
  intro a b h
  have := strVal_natChars a
  rw [h, strVal_natChars] at this
  omega

theorem natKey_injective : Function.Injective natKey := by
  intro a b h
  exact natChars_injective (congrArg String.data h)

theorem digitChar_isDigit (d : Nat) : (digitChar d).isDigit = true := by
  unfold digitChar
  split_ifs <;> decide

theorem digitChar_ne_colon (d : Nat) : digitChar d ≠ ':' := by
  unfold digitChar
  split_ifs <;> decide

theorem natChars_digits (n : Nat) : ∀ c ∈ natChars n, c.isDigit = true := by
  induction n using Nat.strong_induction_on with
  | _ n ih =>
    intro c hc
    by_cases h10 : n < 10
    · rw [natChars, natCharsAux, if_pos h10] at hc
      simp at hc
      exact hc ▸ digitChar_isDigit _
    · rw [natChars_decomp n (by omega)] at hc
      rcases List.mem_append.mp hc with h | h
      · exact ih (n / 10) (Nat.div_lt_self (by omega) (by omega)) c h
      · simp at h
        exact h ▸ digitChar_isDigit _

theorem natChars_no_colon (n : Nat) : ∀ c ∈ natChars n, c ≠ ':' := by
  intro c hc
  have := natChars_digits n c hc
  intro h
  rw [h] at this
  exact absurd this (by decide)

/-! ### FuzzyMatcher (fuzzySearch.ts) -/

/-- `isBoundaryChar` from fuzzySearch.ts. -/
def isBoundaryChar (c : Char) : Bool :=
  c = ' ' || c = '-' || c = '_' || c = '/' || c = '.'

/-- The scan loop of `fuzzyScore`.  `rest` is the unread tail of the candidate,
`qrest` the unconsumed query, `idx` the current candidate index, `prevChar` the
candidate character at `idx - 1` (`none` at index 0), `prevMatch` the
`previousMatchIdx` variable (initially `-1`), `score` the accumulator.
Returns the final score and the unconsumed query. -/
def fuzzyLoop : List Char → List Char → Nat → Option Char → Int → ℚ → ℚ × List Char
  | [], qrest, _, _, _, score => (score, qrest)
  | _ :: _, [], _, _, _, score => (score, [])
  | c :: rest, qc :: qrest, idx, prevChar, prevMatch, score =>
    if c = qc then
      let s1 := score + 1
      let s2 := if prevMatch = (idx : Int) - 1 then s1 + 6 else s1
      let boundary := idx = 0 ||
        (match prevChar with | some pc => isBoundaryChar pc | none => false)
      let s3 := if boundary then s2 + 4 else s2
      let s4 := if idx < 6 then s3 + (6 - (idx : ℚ)) * (1/4) else s3
      fuzzyLoop rest qrest (idx + 1) (some c) (idx : Int) s4
    else
      fuzzyLoop rest (qc :: qrest) (idx + 1) (some c) prevMatch score

/-- `fuzzyScore` from fuzzySearch.ts: lowercase both strings, greedily match the
query as a subsequence of the candidate with contiguity/boundary/early bonuses,
and apply the length penalty. -/
def fuzzyScore (queryRaw candidateRaw : String) : Option ℚ :=
  let query := toLowerStr queryRaw
  let candidate := toLowerStr candidateRaw
  if query.data = [] then some 0
  else if candidate.data = [] then none
  else
    let r := fuzzyLoop candidate.data query.data 0 none (-1) 0
    if r.2 = [] then some (r.1 - (candidate.data.length : ℚ) * (1/100)) else none

/-- Scan loop written from the specification's words: the previous matched
position is an `Option Nat` (absent before the first match) rather than a `-1`
sentinel.  `sentinelAdj` selects the reading of the adjacency bonus at the very
first match: `false` gives the bonus only when a previous matched position
exists (the claim as written), `true` additionally grants it when the first
match is at index 0 (the behaviour of the code's `-1` sentinel). -/
def fuzzySpecLoop (sentinelAdj : Bool) :
    List Char → List Char → Nat → Option Char → Option Nat → ℚ → ℚ × List Char
  | [], qrest, _, _, _, score => (score, qrest)
  | _ :: _, [], _, _, _, score => (score, [])
  | c :: rest, qc :: qrest, idx, prevChar, prevMatch, score =>
    if c = qc then
      let adjacent : Bool := match prevMatch with
        | some p => decide (p + 1 = idx)
        | none => sentinelAdj && decide (idx = 0)
      let s1 := score + 1
      let s2 := if adjacent then s1 + 6 else s1
      let boundary := idx = 0 ||
        (match prevChar with | some pc => isBoundaryChar pc | none => false)
      let s3 := if boundary then s2 + 4 else s2
      let s4 := if idx < 6 then s3 + (6 - (idx : ℚ)) * (1/4) else s3
      fuzzySpecLoop sentinelAdj rest qrest (idx + 1) (some c) (some idx) s4
    else
      fuzzySpecLoop sentinelAdj rest (qc :: qrest) (idx + 1) (some c) prevMatch score

/-- The scoring algorithm as described by the specification, parametrised by
the reading of the first-match adjacency bonus. -/
def fuzzyScoreSpecWith (sentinelAdj : Bool) (queryRaw candidateRaw : String) : Option ℚ :=
  let query := toLowerStr queryRaw
  let candidate := toLowerStr candidateRaw
  if query.data = [] then some 0
  else if candidate.data = [] then none
  else
    let r := fuzzySpecLoop sentinelAdj candidate.data query.data 0 none none 0
    if r.2 = [] then some (r.1 - (candidate.data.length : ℚ) * (1/100)) else none

/-- The claim's algorithm, read literally: the +6 adjacency bonus is awarded
only when a previous matched position exists and is immediately adjacent. -/
def fuzzyScoreClaimed : String → String → Option ℚ := fuzzyScoreSpecWith false

/-- The amended specification: additionally, a first match at candidate
index 0 receives the +6 bonus (the `-1` sentinel makes index 0 "adjacent"). -/
def fuzzyScoreSpec : String → String → Option ℚ := fuzzyScoreSpecWith true

theorem fuzzyLoop_eq_specLoop (rest : List Char) :
    ∀ qrest idx prevChar score (pm : Option Nat),
      fuzzyLoop rest qrest idx prevChar
        (match pm with | none => (-1 : Int) | some k => (k : Int)) score
      = fuzzySpecLoop true rest qrest idx prevChar pm score := by
  induction rest with
  | nil => intro qrest idx prevChar score pm; rfl
  | cons c rest ih =>
    intro qrest idx prevChar score pm
    match qrest with
    | [] => rfl
    | qc :: qrest =>
      by_cases hc : c = qc
      · simp only [fuzzyLoop, fuzzySpecLoop, if_pos hc]
        have hs2 :
            (if (match pm with | none => (-1 : Int) | some k => (k : Int))
                = (idx : Int) - 1 then score + 1 + 6 else score + 1)
            = (if ((match pm with
                | some p => decide (p + 1 = idx)
                | none => true && decide (idx = 0)) : Bool) = true
                then score + 1 + 6 else score + 1) := by
          refine if_congr ?_ rfl rfl
          match pm with
          | none => simp only [Bool.true_and, decide_eq_true_eq]; omega
          | some p => simp only [decide_eq_true_eq]; omega
        rw [hs2]
        exact ih qrest (idx + 1) (some c) _ (some idx)
      · simp only [fuzzyLoop, fuzzySpecLoop, if_neg hc]
        exact ih (qc :: qrest) (idx + 1) (some c) score pm

/-- Claim C1 (amended): `fuzzyScore` lowercases both strings, returns 0 on an
empty query, NO_MATCH on an empty candidate with a non-empty query, and
otherwise performs the greedy subsequence walk with the +1/+6/+4/early
bonuses and the 0.01-per-character length penalty — where the +6 adjacency
bonus is also granted to a first match at candidate index 0 (the `-1`
previous-match sentinel makes index 0 count as adjacent). -/
theorem claim_C1 (q c : String) : fuzzyScore q c = fuzzyScoreSpec q c := by
  have h : fuzzyLoop (toLowerStr c).data (toLowerStr q).data 0 none (-1) 0
      = fuzzySpecLoop true (toLowerStr c).data (toLowerStr q).data 0 none none 0 :=
    fuzzyLoop_eq_specLoop _ _ 0 none 0 none
  simp only [fuzzyScore, fuzzyScoreSpec, fuzzyScoreSpecWith]
  rw [h]

/-- Claim C1, counterexample to the claim as written: on query `"a"` and
candidate `"a"` the code awards the +6 adjacency bonus to the very first
matched character (at index 0, adjacent to the `-1` sentinel), returning
12.49, while the claim's algorithm — which awards +6 only when a previous
matched position exists — yields 6.49. -/
theorem claim_C1_counterexample :
    fuzzyScore "a" "a" ≠ fuzzyScoreClaimed "a" "a"
      ∧ fuzzyScore "a" "a" = some (1249 / 100)
      ∧ fuzzyScoreClaimed "a" "a" = some (649 / 100) := by
  have h0 : (toLowerStr "a").data = ['a'] := by decide
  have h1 : fuzzyScore "a" "a" = some (1249 / 100) := by
    simp only [fuzzyScore, h0]
    norm_num [fuzzyLoop, isBoundaryChar]
  have h2 : fuzzyScoreClaimed "a" "a" = some (649 / 100) := by
    simp only [fuzzyScoreClaimed, fuzzyScoreSpecWith, h0]
    norm_num [fuzzySpecLoop, isBoundaryChar]
  refine ⟨?_, h1, h2⟩
  rw [h1, h2]
  intro h
  have := Option.some.inj h
  norm_num at this

/-! ### RankedSearch, course variant (courseSearch.ts) -/

/-- A course record as consumed by the search (moodle.ts `MoodleCourse`;
fields not read by the search are omitted). -/
structure MoodleCourse where
  id : Nat
  shortname : String
  fullname : String
  displayname : Option String := none
  categoryname : Option String := none
  summary : Option String := none
deriving DecidableEq, Repr

structure WeightedField where
  value : String
  weight : ℚ

structure RankedCourse where
  course : MoodleCourse
  score : ℚ

/-- `buildWeightedFields` from courseSearch.ts. -/
def buildWeightedFields (course : MoodleCourse) : List WeightedField :=
  [⟨course.shortname, 1.2⟩,
   ⟨course.fullname, 1⟩,
   ⟨course.displayname.getD "", 0.95⟩,
   ⟨course.categoryname.getD "", 0.7⟩,
   ⟨course.summary.getD "", 0.35⟩]

/-- `rankCourse` from courseSearch.ts: best (maximum) weighted field score,
`none` when every field is a non-match. -/
def rankCourse (course : MoodleCourse) (query : String) : Option RankedCourse :=
  let fields := buildWeightedFields course
  let bestScore := fields.foldl (fun best f =>
    match fuzzyScore query f.value with
    | none => best
    | some s =>
      let weighted := s * f.weight
      match best with
      | none => some weighted
      | some b => if weighted > b then some weighted else some b) none
  match bestScore with
  | none => none
  | some s => some ⟨course, s⟩

/-- The sort comparator of `filterCoursesByFuzzyQuery`, as the relation
"may come first": descending score, ties broken by base-sensitivity
(case-insensitive) comparison of full names. -/
def courseRankLE (left right : RankedCourse) : Bool :=
  if left.score = right.score then
    decide (toLowerStr left.course.fullname ≤ toLowerStr right.course.fullname)
  else
    decide (right.score < left.score)

/-- `filterCoursesByFuzzyQuery` from courseSearch.ts. -/
def filterCoursesByFuzzyQuery (courses : List MoodleCourse) (queryRaw : String) :
    List MoodleCourse :=
  let query := jsTrim queryRaw
  if query = "" then courses
  else
    (((courses.filterMap (fun c => rankCourse c query)).mergeSort courseRankLE).map
      (·.course))

/-! ### Tree rows and RankedSearch, row variant (CoursePage.tsx / courseContentSearch.ts) -/

/-- `CourseTreeNodeKind` from CoursePage.tsx. -/
inductive CourseTreeNodeKind where
  | sectionKind
  | moduleKind
  | summaryKind
  | moduleDescriptionKind
  | moduleUrlKind
  | contentItemKind
  | labelKind
deriving DecidableEq, Repr

/-- `CourseTreeRow` from CoursePage.tsx. -/
structure CourseTreeRow where
  id : String
  kind : CourseTreeNodeKind
  depth : Nat
  text : String
  icon : String
  collapsible : Bool
  expanded : Bool
  parentId : Option String := none
deriving DecidableEq, Repr

structure RankedCourseRow where
  row : CourseTreeRow
  score : ℚ

/-- `ROW_KIND_WEIGHTS` from courseContentSearch.ts. -/
def rowKindWeight : CourseTreeNodeKind → ℚ
  | .sectionKind => 1.15
  | .moduleKind => 1.1
  | .labelKind => 1.05
  | .contentItemKind => 1
  | .moduleDescriptionKind => 0.85
  | .moduleUrlKind => 0.8
  | .summaryKind => 0.75

/-- `isSearchableRow` from courseContentSearch.ts: every row except the
synthetic empty placeholder. -/
def isSearchableRow (row : CourseTreeRow) : Bool :=
  row.id ≠ "empty"

/-- `rankRow` from courseContentSearch.ts. -/
def rankRow (row : CourseTreeRow) (query : String) : Option RankedCourseRow :=
  match fuzzyScore query row.text with
  | none => none
  | some s => some ⟨row, s * rowKindWeight row.kind⟩

/-- The sort comparator of `filterCourseContentByFuzzyQuery` as a
"may come first" relation: descending score, then case-insensitive text,
then case-insensitive id. -/
def rowRankLE (left right : RankedCourseRow) : Bool :=
  if left.score = right.score then
    if toLowerStr left.row.text = toLowerStr right.row.text then
      decide (toLowerStr left.row.id ≤ toLowerStr right.row.id)
    else
      decide (toLowerStr left.row.text < toLowerStr right.row.text)
  else
    decide (right.score < left.score)

/-- `filterCourseContentByFuzzyQuery` from courseContentSearch.ts. -/
def filterCourseContentByFuzzyQuery (rows : List CourseTreeRow) (queryRaw : String) :
    List CourseTreeRow :=
  let searchableRows := rows.filter isSearchableRow
  let query := jsTrim queryRaw
  if query = "" then searchableRows
  else
    (((searchableRows.filterMap (fun r => rankRow r query)).mergeSort rowRankLE).map
      (·.row))

/-! ### Claims C5 and C10: empty and whitespace-only queries -/

theorem dropWhile_eq_nil_of_forall {α : Type} (p : α → Bool) :
    ∀ l : List α, (∀ c ∈ l, p c) → l.dropWhile p = []
  | [], _ => rfl
  | a :: l, h => by
    rw [List.dropWhile_cons, if_pos (h a (List.mem_cons_self a l))]
    exact dropWhile_eq_nil_of_forall p l (fun c hc => h c (List.mem_cons_of_mem a hc))

theorem jsTrim_of_all_whitespace (q : String) (h : ∀ c ∈ q.data, jsIsWhitespace c) :
    jsTrim q = "" := by
  rw [jsTrim, dropWhile_eq_nil_of_forall jsIsWhitespace q.data h]
  rfl

/-- The synthetic placeholder row emitted for a course with no sections
(CoursePage.tsx). -/
def emptyPlaceholderRow : CourseTreeRow :=
  ⟨"empty", .summaryKind, 0, "No visible course content returned by Moodle.",
    "•", false, false, none⟩

/-- Claim C5 (amended): with the empty query, the course variant is the
identity, and the row variant returns the input with the synthetic
`empty` placeholder removed and is the identity only on inputs that do not
contain that placeholder. -/
theorem claim_C5 :
    (∀ courses, filterCoursesByFuzzyQuery courses "" = courses)
    ∧ ∀ rows, filterCourseContentByFuzzyQuery rows ""
        = rows.filter (fun r => r.id ≠ "empty") := by
  constructor
  · intro courses
    simp only [filterCoursesByFuzzyQuery]
    rw [if_pos (by decide : jsTrim "" = "")]
  · intro rows
    simp only [filterCourseContentByFuzzyQuery]
    rw [if_pos (by decide : jsTrim "" = "")]
    rfl

/-- Claim C5, counterexample to the claim as written: the row variant is not
the identity on the empty query when the input contains the synthetic
placeholder row — the placeholder is filtered out of the candidate pool
before the empty-query test. -/
theorem claim_C5_counterexample :
    filterCourseContentByFuzzyQuery [emptyPlaceholderRow] "" = []
      ∧ filterCourseContentByFuzzyQuery [emptyPlaceholderRow] ""
          ≠ [emptyPlaceholderRow] := by
  constructor <;> decide

/-- Claim C10: both variants trim the query before testing for emptiness, so a
whitespace-only query behaves like the empty query: the course variant
returns the course list unchanged and the row variant returns every
searchable row (all rows except the `empty` placeholder) unchanged. -/
theorem claim_C10 (q : String) (hws : ∀ c ∈ q.data, jsIsWhitespace c) :
    (∀ courses, filterCoursesByFuzzyQuery courses q = courses)
    ∧ ∀ rows, filterCourseContentByFuzzyQuery rows q
        = rows.filter (fun r => r.id ≠ "empty") := by
  have ht : jsTrim q = "" := jsTrim_of_all_whitespace q hws
  constructor
  · intro courses
    simp only [filterCoursesByFuzzyQuery]
    rw [if_pos ht]
  · intro rows
    simp only [filterCourseContentByFuzzyQuery]
    rw [if_pos ht]
    rfl

def sampleCourse : MoodleCourse := ⟨1, "MATH", "Mathematics", none, none, none⟩

def sampleSectionRow : CourseTreeRow :=
  ⟨"section:1", .sectionKind, 0, "Intro", "f", true, true, none⟩

theorem claim_C10_witness :
    filterCoursesByFuzzyQuery [sampleCourse] " " = [sampleCourse]
      ∧ filterCourseContentByFuzzyQuery [sampleSectionRow, emptyPlaceholderRow] " "
          = [sampleSectionRow] := by
  have h := claim_C10 " " (by decide)
  refine ⟨h.1 [sampleCourse], ?_⟩
  rw [h.2 [sampleSectionRow, emptyPlaceholderRow]]
  decide

/-! ### Claims C4 and C6: ranking with a non-empty query -/

/-- The weighted field score of one field: the fuzzy score, when it matches,
multiplied by the field's weight. -/
def weightedFieldScore (query : String) (f : WeightedField) : Option ℚ :=
  (fuzzyScore query f.value).map (· * f.weight)

/-- The specification's per-course score: the maximum weighted score across
the five weighted fields (short name 1.2, full name 1.0, display name 0.95,
category name 0.7, summary 0.35), `none` when every field is a non-match. -/
def bestScoreSpec (query : String) (course : MoodleCourse) : Option ℚ :=
  ((buildWeightedFields course).filterMap (weightedFieldScore query)).max?

/-- Combine two optional scores, keeping the larger. -/
def optMax (a b : Option ℚ) : Option ℚ :=
  match a, b with
  | none, b => b
  | some x, none => some x
  | some x, some y => some (max x y)

theorem optMax_none_right (a : Option ℚ) : optMax a none = a := by
  cases a <;> rfl

theorem optMax_assoc (a b c : Option ℚ) :
    optMax (optMax a b) c = optMax a (optMax b c) := by
  cases a <;> cases b <;> cases c <;> simp [optMax, max_assoc]

theorem foldl_max_init (bs : List ℚ) :
    ∀ w b, bs.foldl max (max w b) = max w (bs.foldl max b) := by
  induction bs with
  | nil => intro w b; rfl
  | cons c cs ih =>
    intro w b
    show cs.foldl max (max (max w b) c) = max w (cs.foldl max (max b c))
    rw [max_assoc, ih w (max b c)]

theorem max?_cons_optMax (w : ℚ) (t : List ℚ) :
    (w :: t).max? = optMax (some w) t.max? := by
  cases t with
  | nil => rfl
  | cons b bs =>
    show some ((b :: bs).foldl max w) = optMax (some w) (some (bs.foldl max b))
    show some (bs.foldl max (max w b)) = some (max w (bs.foldl max b))
    rw [foldl_max_init]

theorem rankCourse_step_eq (query : String) (best : Option ℚ) (f : WeightedField) :
    (match fuzzyScore query f.value with
      | none => best
      | some s =>
        let weighted := s * f.weight
        match best with
        | none => some weighted
        | some b => if weighted > b then some weighted else some b)
      = optMax best (weightedFieldScore query f) := by
  rw [weightedFieldScore]
  cases hf : fuzzyScore query f.value with
  | none =>
    show best = optMax best (Option.map (fun x => x * f.weight) none)
    simp only [Option.map_none']
    exact (optMax_none_right best).symm
  | some s =>
    cases best with
    | none => rfl
    | some b =>
      show (if s * f.weight > b then some (s * f.weight) else some b)
          = some (max b (s * f.weight))
      rcases le_or_lt (s * f.weight) b with h | h
      · rw [if_neg (not_lt.mpr h), max_eq_left h]
      · rw [if_pos h, max_eq_right (le_of_lt h)]

theorem rankCourse_foldl (query : String) :
    ∀ (l : List WeightedField) (acc : Option ℚ),
      l.foldl (fun best f =>
        match fuzzyScore query f.value with
        | none => best
        | some s =>
          let weighted := s * f.weight
          match best with
          | none => some weighted
          | some b => if weighted > b then some weighted else some b) acc
      = optMax acc ((l.filterMap (weightedFieldScore query)).max?) := by
  intro l
  induction l with
  | nil =>
    intro acc
    rw [List.foldl_nil, List.filterMap_nil]
    simp [List.max?_nil, optMax_none_right]
  | cons f fs ih =>
    intro acc
    rw [List.foldl_cons, ih, rankCourse_step_eq, List.filterMap_cons]
    cases hf : weightedFieldScore query f with
    | none => rw [optMax_none_right]
    | some w => rw [max?_cons_optMax, ← optMax_assoc]

/-- `rankCourse` computes exactly the specification's maximum weighted field
score. -/
theorem rankCourse_eq (course : MoodleCourse) (query : String) :
    rankCourse course query
      = (bestScoreSpec query course).map (fun s => ⟨course, s⟩) := by
  rw [rankCourse, bestScoreSpec]
  rw [show (buildWeightedFields course).foldl _ none
      = optMax none (((buildWeightedFields course).filterMap
          (weightedFieldScore query)).max?) from rankCourse_foldl query _ none]
  cases ((buildWeightedFields course).filterMap (weightedFieldScore query)).max? <;> rfl

theorem rankCourse_course (course : MoodleCourse) (query : String)
    (r : RankedCourse) (h : rankCourse course query = some r) : r.course = course := by
  rw [rankCourse_eq] at h
  cases hb : bestScoreSpec query course with
  | none => rw [hb] at h; exact absurd h (by simp)
  | some s =>
    rw [hb] at h
    simp only [Option.map_some'] at h
    rw [← Option.some.inj h]

theorem rankRow_row (row : CourseTreeRow) (query : String)
    (r : RankedCourseRow) (h : rankRow row query = some r) : r.row = row := by
  rw [rankRow] at h
  cases hf : fuzzyScore query row.text with
  | none => rw [hf] at h; exact absurd h (by simp)
  | some s =>
    rw [hf] at h
    rw [← Option.some.inj h]

theorem courseRankLE_total (a b : RankedCourse) :
    courseRankLE a b || courseRankLE b a := by
  rw [courseRankLE, courseRankLE]
  by_cases h : a.score = b.score
  · rw [if_pos h, if_pos h.symm]
    simp only [Bool.or_eq_true, decide_eq_true_eq]
    exact le_total _ _
  · rw [if_neg h, if_neg (fun e => h e.symm)]
    simp only [Bool.or_eq_true, decide_eq_true_eq]
    rcases lt_or_gt_of_ne h with hlt | hgt
    · exact Or.inr hlt
    · exact Or.inl hgt

theorem courseRankLE_trans (a b c : RankedCourse) :
    courseRankLE a b → courseRankLE b c → courseRankLE a c := by
  rw [courseRankLE, courseRankLE, courseRankLE]
  by_cases h1 : a.score = b.score <;> by_cases h2 : b.score = c.score
  · rw [if_pos h1, if_pos h2, if_pos (h1.trans h2)]
    simp only [decide_eq_true_eq]
    exact le_trans
  · rw [if_pos h1, if_neg h2, if_neg (fun e => h2 (h1.symm.trans e))]
    simp only [decide_eq_true_eq]
    intro _ hbc
    rw [h1]
    exact hbc
  · rw [if_neg h1, if_pos h2, if_neg (fun e => h1 (e.trans h2.symm))]
    simp only [decide_eq_true_eq]
    intro hab _
    rw [← h2]
    exact hab
  · rw [if_neg h1, if_neg h2]
    simp only [decide_eq_true_eq]
    intro hab hbc
    rw [if_neg (fun e : a.score = c.score => absurd (e ▸ hab) (lt_asymm hbc))]
    simp only [decide_eq_true_eq]
    exact lt_trans hbc hab

theorem filterMap_rank_eq_filter (query : String) :
    ∀ courses : List MoodleCourse,
      (courses.filterMap (fun c => rankCourse c query)).map (·.course)
        = courses.filter (fun c => (bestScoreSpec query c).isSome) := by
  intro courses
  induction courses with
  | nil => rfl
  | cons c cs ih =>
    cases hb : bestScoreSpec query c with
    | none =>
      have hr : rankCourse c query = none := by rw [rankCourse_eq, hb]; rfl
      rw [@List.filterMap_cons_none _ _ (fun c => rankCourse c query) c cs hr,
        List.filter_cons_of_neg (by rw [hb]; decide), ih]
    | some s =>
      have hr : rankCourse c query = some ⟨c, s⟩ := by rw [rankCourse_eq, hb]; rfl
      rw [@List.filterMap_cons_some _ _ (fun c => rankCourse c query) c cs _ hr,
        List.map_cons,
        List.filter_cons_of_pos (by rw [hb]; rfl), ih]

/-- Claim C4 (amended): for every query whose whitespace-trimmed form is
non-empty, the course variant keeps exactly the courses for which some
weighted field matches the trimmed query (the per-course score being the
maximum weighted field score, not the sum), and the output is ordered by
strictly descending score with ties broken by case-insensitive comparison
of full names. -/
theorem claim_C4 (courses : List MoodleCourse) (q : String) (hq : jsTrim q ≠ "") :
    (filterCoursesByFuzzyQuery courses q).Perm
        (courses.filter (fun c => (bestScoreSpec (jsTrim q) c).isSome))
    ∧ (filterCoursesByFuzzyQuery courses q).Pairwise (fun c₁ c₂ =>
        (bestScoreSpec (jsTrim q) c₂).getD 0 < (bestScoreSpec (jsTrim q) c₁).getD 0
        ∨ ((bestScoreSpec (jsTrim q) c₁).getD 0 = (bestScoreSpec (jsTrim q) c₂).getD 0
            ∧ toLowerStr c₁.fullname ≤ toLowerStr c₂.fullname)) := by
  have hdef : filterCoursesByFuzzyQuery courses q
      = ((courses.filterMap (fun c => rankCourse c (jsTrim q))).mergeSort
          courseRankLE).map (·.course) := by
    simp only [filterCoursesByFuzzyQuery]
    rw [if_neg hq]
  have hmem : ∀ r ∈ (courses.filterMap
      (fun c => rankCourse c (jsTrim q))).mergeSort courseRankLE,
      bestScoreSpec (jsTrim q) r.course = some r.score := by
    intro r hr
    rw [List.mem_mergeSort] at hr
    obtain ⟨c, _, hrc⟩ := List.mem_filterMap.mp hr
    rw [rankCourse_eq] at hrc
    cases hb : bestScoreSpec (jsTrim q) c with
    | none => rw [hb] at hrc; exact absurd hrc (by simp)
    | some s =>
      rw [hb] at hrc
      simp only [Option.map_some'] at hrc
      rw [← Option.some.inj hrc]
      exact hb
  constructor
  · rw [hdef]
    have hp := (List.mergeSort_perm
      (courses.filterMap (fun c => rankCourse c (jsTrim q))) courseRankLE).map
      (·.course)
    rw [filterMap_rank_eq_filter] at hp
    exact hp
  · rw [hdef]
    refine List.pairwise_map.mpr ?_
    refine List.Pairwise.imp_of_mem ?_
      (List.sorted_mergeSort courseRankLE_trans courseRankLE_total
        (courses.filterMap (fun c => rankCourse c (jsTrim q))))
    intro r₁ r₂ hm₁ hm₂ hle
    have hs₁ := hmem r₁ hm₁
    have hs₂ := hmem r₂ hm₂
    rw [courseRankLE] at hle
    rw [hs₁, hs₂]
    simp only [Option.getD_some]
    by_cases h : r₁.score = r₂.score
    · rw [if_pos h] at hle
      simp only [decide_eq_true_eq] at hle
      exact Or.inr ⟨h, hle⟩
    · rw [if_neg h] at hle
      simp only [decide_eq_true_eq] at hle
      exact Or.inl hle

def cexCourse : MoodleCourse := ⟨7, "a", "a", none, none, none⟩

theorem filterCourses_singleton (c : MoodleCourse) (q : String) (hq : jsTrim q ≠ "") :
    filterCoursesByFuzzyQuery [c] q
      = if (rankCourse c (jsTrim q)).isSome then [c] else [] := by
  simp only [filterCoursesByFuzzyQuery]
  rw [if_neg hq]
  cases hr : rankCourse c (jsTrim q) with
  | none =>
    rw [@List.filterMap_cons_none _ _ (fun c => rankCourse c (jsTrim q)) c [] hr,
      if_neg (by decide)]
    simp
  | some r =>
    rw [@List.filterMap_cons_some _ _ (fun c => rankCourse c (jsTrim q)) c [] _ hr,
      if_pos (show (some r).isSome = true from rfl)]
    have hc := rankCourse_course c (jsTrim q) r hr
    simp [List.mergeSort_singleton, hc]

/-- Claim C4, counterexample to the claim as written: the query is trimmed
before scoring, so for the non-empty query consisting of `a` followed by a
space, a course whose every field fails to match that raw query is still
returned (it matches the trimmed query `a`). -/
theorem claim_C4_counterexample :
    (∀ f ∈ buildWeightedFields cexCourse, fuzzyScore "a " f.value = none)
    ∧ filterCoursesByFuzzyQuery [cexCourse] "a " = [cexCourse] := by
  refine ⟨by decide, ?_⟩
  rw [filterCourses_singleton cexCourse "a " (by decide),
    (by decide : jsTrim "a " = "a"), rankCourse_eq]
  cases hbs : bestScoreSpec "a" cexCourse with
  | none => exact absurd hbs (by decide)
  | some s => rfl

theorem filterContent_def (rows : List CourseTreeRow) (q : String) (hq : jsTrim q ≠ "") :
    filterCourseContentByFuzzyQuery rows q
      = (((rows.filter isSearchableRow).filterMap
          (fun r => rankRow r (jsTrim q))).mergeSort rowRankLE).map (·.row) := by
  simp only [filterCourseContentByFuzzyQuery]
  rw [if_neg hq]

/-- Claim C6 (amended): for every query whose whitespace-trimmed form is
non-empty, every returned candidate has a matching scored field for the
trimmed query: in the row variant the row's display text matches, and in the
course variant at least one of the five weighted fields matches. -/
theorem claim_C6 (q : String) (hq : jsTrim q ≠ "") :
    (∀ rows r, r ∈ filterCourseContentByFuzzyQuery rows q →
        fuzzyScore (jsTrim q) r.text ≠ none)
    ∧ (∀ courses c, c ∈ filterCoursesByFuzzyQuery courses q →
        ∃ f ∈ buildWeightedFields c, fuzzyScore (jsTrim q) f.value ≠ none) := by
  constructor
  · intro rows r hr
    rw [filterContent_def rows q hq] at hr
    obtain ⟨rr, hrr, hmap⟩ := List.mem_map.mp hr
    rw [List.mem_mergeSort] at hrr
    obtain ⟨r₀, _, hrank⟩ := List.mem_filterMap.mp hrr
    have hrow := rankRow_row r₀ (jsTrim q) rr hrank
    rw [rankRow] at hrank
    cases hf : fuzzyScore (jsTrim q) r₀.text with
    | none => rw [hf] at hrank; exact absurd hrank (by simp)
    | some s =>
      rw [← hmap, hrow, hf]
      simp
  · intro courses c hc
    have hdef : filterCoursesByFuzzyQuery courses q
        = ((courses.filterMap (fun c => rankCourse c (jsTrim q))).mergeSort
            courseRankLE).map (·.course) := by
      simp only [filterCoursesByFuzzyQuery]
      rw [if_neg hq]
    rw [hdef] at hc
    obtain ⟨rc, hrc, hmap⟩ := List.mem_map.mp hc
    rw [List.mem_mergeSort] at hrc
    obtain ⟨c₀, _, hrank⟩ := List.mem_filterMap.mp hrc
    have hcc : rc.course = c₀ := rankCourse_course _ _ _ hrank
    have hceq : c₀ = c := hcc.symm.trans hmap
    by_contra hnone
    push_neg at hnone
    have hempty : (buildWeightedFields c).filterMap (weightedFieldScore (jsTrim q))
        = [] := by
      rw [List.filterMap_eq_nil_iff]
      intro f hf
      rw [weightedFieldScore, hnone f hf]
      rfl
    have hb : bestScoreSpec (jsTrim q) c = none := by
      rw [bestScoreSpec, hempty]
      rfl
    rw [rankCourse_eq, hceq, hb] at hrank
    exact absurd hrank (by simp)

theorem filterContent_singleton (r : CourseTreeRow) (q : String)
    (hq : jsTrim q ≠ "") (hs : isSearchableRow r = true) :
    filterCourseContentByFuzzyQuery [r] q
      = if (rankRow r (jsTrim q)).isSome then [r] else [] := by
  simp only [filterCourseContentByFuzzyQuery]
  rw [if_neg hq, List.filter_cons_of_pos hs]
  cases hr : rankRow r (jsTrim q) with
  | none =>
    rw [@List.filterMap_cons_none _ _ (fun r => rankRow r (jsTrim q)) r _ hr,
      if_neg (by decide)]
    simp
  | some rr =>
    rw [@List.filterMap_cons_some _ _ (fun r => rankRow r (jsTrim q)) r _ _ hr,
      if_pos (show (some rr).isSome = true from rfl)]
    have hrow := rankRow_row r (jsTrim q) rr hr
    simp [List.mergeSort_singleton, hrow]

def cexRow : CourseTreeRow :=
  ⟨"label:1:2", .labelKind, 1, "x", "t", false, false, some "section:1"⟩

/-- Claim C6, counterexample to the claim as written: for the non-empty
whitespace query consisting of one space, the row variant returns every
searchable row unchanged, including rows whose display text does not match
that query at all. -/
theorem claim_C6_counterexample :
    filterCourseContentByFuzzyQuery [cexRow] " " = [cexRow]
      ∧ fuzzyScore " " cexRow.text = none := by
  constructor <;> decide

theorem claim_C6_witness :
    fuzzyScore (jsTrim "in") sampleSectionRow.text ≠ none
      ∧ ∃ f ∈ buildWeightedFields sampleCourse,
          fuzzyScore (jsTrim "ma") f.value ≠ none := by
  constructor
  · refine (claim_C6 "in" (by decide)).1 [sampleSectionRow] sampleSectionRow ?_
    rw [filterContent_singleton sampleSectionRow "in" (by decide) (by decide),
      if_pos (by decide : (rankRow sampleSectionRow (jsTrim "in")).isSome = true)]
    exact List.mem_singleton_self _
  · refine (claim_C6 "ma" (by decide)).2 [sampleCourse] sampleCourse ?_
    have hsome : (rankCourse sampleCourse (jsTrim "ma")).isSome = true := by
      rw [rankCourse_eq]
      cases hbs : bestScoreSpec (jsTrim "ma") sampleCourse with
      | none => exact absurd hbs (by decide)
      | some s => rfl
    rw [filterCourses_singleton sampleCourse "ma" (by decide), if_pos hsome]
    exact List.mem_singleton_self _

theorem claim_C4_witness :
    (filterCoursesByFuzzyQuery [sampleCourse] "ma").Perm
        ([sampleCourse].filter (fun c => (bestScoreSpec (jsTrim "ma") c).isSome))
    ∧ (filterCoursesByFuzzyQuery [sampleCourse] "ma").Pairwise (fun c₁ c₂ =>
        (bestScoreSpec (jsTrim "ma") c₂).getD 0 < (bestScoreSpec (jsTrim "ma") c₁).getD 0
        ∨ ((bestScoreSpec (jsTrim "ma") c₁).getD 0 = (bestScoreSpec (jsTrim "ma") c₂).getD 0
            ∧ toLowerStr c₁.fullname ≤ toLowerStr c₂.fullname)) :=
  claim_C4 [sampleCourse] "ma" (by decide)

/-! ### TreeFlattener (CoursePage.tsx): data model -/

/-- `MoodleCourseModuleContentItem` from moodle.ts (fields not read by the
flattener are omitted). -/
structure MoodleCourseModuleContentItem where
  type : Option String := none
  filename : Option String := none
  fileurl : Option String := none
  url : Option String := none
deriving DecidableEq, Repr

/-- `MoodleCourseModule` from moodle.ts (fields not read by the flattener are
omitted). -/
structure MoodleCourseModule where
  id : Nat
  name : String
  modname : Option String := none
  description : Option String := none
  url : Option String := none
  contents : List MoodleCourseModuleContentItem := []
deriving DecidableEq, Repr

/-- `MoodleCourseSection` from moodle.ts; the ordinal field named `section`
in the source is called `sectionNum` here because `section` is a Lean
keyword. -/
structure MoodleCourseSection where
  id : Nat
  name : Option String := none
  sectionNum : Option Nat := none
  summary : Option String := none
  modules : List MoodleCourseModule := []
deriving DecidableEq, Repr

/-! ### Text sanitization (decodeHtmlEntities / stripHtml) -/

def isHexDigitChar (c : Char) : Bool :=
  ('0' ≤ c && c ≤ '9') || ('a' ≤ c && c ≤ 'f') || ('A' ≤ c && c ≤ 'F')

def isAsciiLetter (c : Char) : Bool :=
  ('a' ≤ c && c ≤ 'z') || ('A' ≤ c && c ≤ 'Z')

def hexDigitVal (c : Char) : Nat :=
  if '0' ≤ c ∧ c ≤ '9' then c.toNat - 48
  else if 'a' ≤ c ∧ c ≤ 'f' then c.toNat - 87
  else if 'A' ≤ c ∧ c ≤ 'F' then c.toNat - 55
  else 0

def hexVal (cs : List Char) : Nat := cs.foldl (fun a c => 16 * a + hexDigitVal c) 0

/-- `parseInt(s, 10)` on a string the entity regex matched: the value of the
leading run of decimal digits, `none` (NaN) when there is none. -/
def decPrefixVal (cs : List Char) : Option Nat :=
  let ds := cs.takeWhile (fun c => '0' ≤ c && c ≤ '9')
  if ds.isEmpty then none
  else some (ds.foldl (fun a c => 10 * a + (c.toNat - 48)) 0)

/-- `NAMED_HTML_ENTITIES` from CoursePage.tsx, looked up by lowercased name. -/
def namedEntity (name : List Char) : Option (List Char) :=
  match (toLowerStr ⟨name⟩).data with
  | ['a', 'm', 'p'] => some ['&']
  | ['l', 't'] => some ['<']
  | ['g', 't'] => some ['>']
  | ['q', 'u', 'o', 't'] => some ['"']
  | ['a', 'p', 'o', 's'] => some ['\'']
  | ['n', 'b', 's', 'p'] => some [' ']
  | _ => none

/-- Match the regex body following an ampersand:
`#x?[0-9a-fA-F]+|[a-zA-Z]+` followed by a semicolon.  Returns the entity body
and the remaining characters after the semicolon. -/
def splitEntityBody (cs : List Char) : Option (List Char × List Char) :=
  match cs with
  | '#' :: rest =>
    match rest with
    | 'x' :: rest2 =>
      let hex := rest2.takeWhile isHexDigitChar
      if hex.isEmpty then none
      else
        match rest2.drop hex.length with
        | ';' :: rem => some ('#' :: 'x' :: hex, rem)
        | _ => none
    | _ =>
      let hex := rest.takeWhile isHexDigitChar
      if hex.isEmpty then none
      else
        match rest.drop hex.length with
        | ';' :: rem => some ('#' :: hex, rem)
        | _ => none
  | _ =>
    let letters := cs.takeWhile isAsciiLetter
    if letters.isEmpty then none
    else
      match cs.drop letters.length with
      | ';' :: rem => some (letters, rem)
      | _ => none

/-- The replacement text for one matched entity (the match itself when the
code point is invalid or the name unknown).  `String.fromCodePoint` is
modelled by `Char.ofNat`. -/
def entityReplacement (body : List Char) : List Char :=
  let full := '&' :: body ++ [';']
  match body with
  | '#' :: 'x' :: hex =>
    let codePoint := hexVal hex
    if codePoint ≤ 0 then full else [Char.ofNat codePoint]
  | '#' :: ds =>
    match decPrefixVal ds with
    | none => full
    | some codePoint => if codePoint ≤ 0 then full else [Char.ofNat codePoint]
  | name =>
    match namedEntity name with
    | none => full
    | some repl => repl

/-- `decodeHtmlEntities` from CoursePage.tsx, as a fueled left-to-right scan
(the fuel is the length of the input, which each step consumes at least one
character of). -/
def decodeEntitiesGo : Nat → List Char → List Char
  | 0, cs => cs
  | _ + 1, [] => []
  | fuel + 1, '&' :: rest =>
    match splitEntityBody rest with
    | some (body, rem) => entityReplacement body ++ decodeEntitiesGo fuel rem
    | none => '&' :: decodeEntitiesGo fuel rest
  | fuel + 1, c :: rest => c :: decodeEntitiesGo fuel rest

def decodeHtmlEntities (cs : List Char) : List Char := decodeEntitiesGo cs.length cs

/-- The tag-stripping replace `/<[^>]*>/g → " "`: a `<` with a later `>`
swallows everything up to the first `>` and becomes one space; a `<` with no
closing `>` stays literal. -/
def stripTagsGo : Nat → List Char → List Char
  | 0, cs => cs
  | _ + 1, [] => []
  | fuel + 1, '<' :: rest =>
    match rest.dropWhile (fun c => !(c == '>')) with
    | '>' :: rem => ' ' :: stripTagsGo fuel rem
    | _ => '<' :: stripTagsGo fuel rest
  | fuel + 1, c :: rest => c :: stripTagsGo fuel rest

def stripTags (cs : List Char) : List Char := stripTagsGo cs.length cs

/-- The whitespace-collapsing replace `/\s+/g → " "`: each maximal whitespace
run becomes a single space.  The flag records whether the previous character
belonged to a run already replaced. -/
def collapseWsGo : Bool → List Char → List Char
  | _, [] => []
  | prevWs, c :: rest =>
    if jsIsWhitespace c then
      (if prevWs then [] else [' ']) ++ collapseWsGo true rest
    else c :: collapseWsGo false rest

/-- `stripHtml` from CoursePage.tsx on a present string: decode entities,
replace tags by spaces, collapse whitespace runs, trim. -/
def stripHtmlStr (s : String) : String :=
  jsTrim ⟨collapseWsGo false (stripTags (decodeHtmlEntities s.data))⟩

/-- `stripHtml` from CoursePage.tsx (empty result for an absent value). -/
def stripHtml (value : Option String) : String :=
  match value with
  | none => ""
  | some s => stripHtmlStr s

/-! ### TreeFlattener (CoursePage.tsx): row construction -/

/-- `courseSectionNodeId` from CoursePage.tsx. -/
def courseSectionNodeId (sectionId : Nat) : String :=
  "section:" ++ natKey sectionId

/-- `courseModuleNodeId` from CoursePage.tsx. -/
def courseModuleNodeId (sectionId moduleId : Nat) : String :=
  "module:" ++ natKey sectionId ++ ":" ++ natKey moduleId

def summaryKey (sectionId : Nat) : String := "summary:" ++ natKey sectionId

def sectionEmptyKey (sectionId : Nat) : String :=
  "section-empty:" ++ natKey sectionId

def labelKey (sectionId moduleId : Nat) : String :=
  "label:" ++ natKey sectionId ++ ":" ++ natKey moduleId

def moduleDescriptionKey (sectionId moduleId : Nat) : String :=
  "module-description:" ++ natKey sectionId ++ ":" ++ natKey moduleId

def moduleUrlKey (sectionId moduleId : Nat) : String :=
  "module-url:" ++ natKey sectionId ++ ":" ++ natKey moduleId

def contentKey (sectionId moduleId contentIndex : Nat) : String :=
  "content:" ++ natKey sectionId ++ ":" ++ natKey moduleId ++ ":"
    ++ natKey contentIndex

/-- `normalizeType` from CoursePage.tsx. -/
def normalizeType (value : Option String) : String :=
  toLowerStr (jsTrim (value.getD ""))

/-- `resolveModuleIcon` from CoursePage.tsx (`MODULE_TYPE_ICONS` lookup). -/
def resolveModuleIcon (modname : Option String) : String :=
  match normalizeType modname with
  | "forum" => "💬"
  | "quiz" => "📝"
  | "resource" => "📄"
  | "assign" => "✅"
  | "url" => "🔗"
  | "page" => "📃"
  | "book" => "📚"
  | "folder" => "📁"
  | "label" => "🏷"
  | _ => "📦"

/-- `resolveContentIcon` from CoursePage.tsx. -/
def resolveContentIcon (contentType : Option String) : String :=
  let normalized := normalizeType contentType
  if normalized = "folder" then "📁"
  else if normalized = "url" then "🔗"
  else "📄"

/-- One content-item row (`module.contents.forEach` body). -/
def contentItemRow (sid mid idx : Nat) (content : MoodleCourseModuleContentItem) :
    CourseTreeRow :=
  let itemLabel := jsOrStr content.filename (jsOrStr content.type "content item")
  let itemUrl := jsOrOptStr content.fileurl content.url
  let text := match itemUrl with
    | some u => itemLabel ++ ": " ++ u
    | none => itemLabel
  ⟨contentKey sid mid idx, .contentItemKind, 2, text,
    resolveContentIcon content.type, false, false, some (courseModuleNodeId sid mid)⟩

/-- The content-item rows of a module, indexed from `i`. -/
def contentRows (sid mid : Nat) : Nat → List MoodleCourseModuleContentItem →
    List CourseTreeRow
  | _, [] => []
  | i, c :: cs => contentItemRow sid mid i c :: contentRows sid mid (i + 1) cs

/-- The text of a label row:
`stripHtml(description) || stripHtml(name) || "(Empty label)"`. -/
def labelText (m : MoodleCourseModule) : String :=
  let d := stripHtml m.description
  if d = "" then
    let n := stripHtmlStr m.name
    if n = "" then "(Empty label)" else n
  else d

/-- The rows emitted for one activity (`section.modules.forEach` body):
a single leaf row for a label, otherwise a module row followed — unless the
module is collapsed — by optional description and url rows and one row per
content item. -/
def moduleRows (sid : Nat) (collapsed : List String) (m : MoodleCourseModule) :
    List CourseTreeRow :=
  if normalizeType m.modname = "label" then
    [⟨labelKey sid m.id, .labelKind, 1, labelText m, "🏷", false, false,
      some (courseSectionNodeId sid)⟩]
  else
    let mid := courseModuleNodeId sid m.id
    let moduleCollapsed := collapsed.contains mid
    ⟨mid, .moduleKind, 1, m.name, resolveModuleIcon m.modname, true,
      !moduleCollapsed, some (courseSectionNodeId sid)⟩
    :: (if moduleCollapsed then []
        else
          (let d := stripHtml m.description
           if d = "" then []
           else [⟨moduleDescriptionKey sid m.id, .moduleDescriptionKind, 2, d,
             "•", false, false, some mid⟩])
          ++ (match m.url with
              | some u =>
                if u = "" then []
                else [⟨moduleUrlKey sid m.id, .moduleUrlKind, 2, u, "🔗",
                  false, false, some mid⟩]
              | none => [])
          ++ contentRows sid m.id 0 m.contents)

/-- The rows emitted for all activities of a section, in order. -/
def modulesRows (sid : Nat) (collapsed : List String) :
    List MoodleCourseModule → List CourseTreeRow
  | [] => []
  | m :: ms => moduleRows sid collapsed m ++ modulesRows sid collapsed ms

/-- The rows emitted for one section (`sections.forEach` body): the section
row, then — unless the section is collapsed — an optional summary row and
either the empty-section placeholder or the activity rows. -/
def sectionRows (sectionIndex : Nat) (collapsed : List String)
    (s : MoodleCourseSection) : List CourseTreeRow :=
  let sectionName := jsOrStr (s.name.map jsTrim)
    ("Section " ++ natKey (s.sectionNum.getD (sectionIndex + 1)))
  let sid := courseSectionNodeId s.id
  let sectionCollapsed := collapsed.contains sid
  ⟨sid, .sectionKind, 0, sectionName, "📁", true, !sectionCollapsed, none⟩
  :: (if sectionCollapsed then []
      else
        (let sm := stripHtml s.summary
         if sm = "" then []
         else [⟨summaryKey s.id, .summaryKind, 1, sm, "🗒", false, false,
           some sid⟩])
        ++ (if s.modules.isEmpty then
              [⟨sectionEmptyKey s.id, .summaryKind, 1,
                "(No activities in this section)", "•", false, false, some sid⟩]
            else modulesRows s.id collapsed s.modules))

/-- The rows of all sections, `sectionIndex` counting from `idx`. -/
def sectionsRows (collapsed : List String) :
    Nat → List MoodleCourseSection → List CourseTreeRow
  | _, [] => []
  | idx, s :: rest => sectionRows idx collapsed s ++ sectionsRows collapsed (idx + 1) rest

/-- `buildCourseTreeRows` from CoursePage.tsx. -/
def buildCourseTreeRows (sections : List MoodleCourseSection)
    (collapsed : List String) : List CourseTreeRow :=
  if sections.isEmpty then [emptyPlaceholderRow]
  else sectionsRows collapsed 0 sections

/-! ### Row-id disjointness and injectivity

Every row id is a fixed tag followed by a colon and colon-free decimal
renderings (or the bare string `empty`).  The tag — the id up to the first
colon — distinguishes the nine id templates, and the decimal parts identify
the source entity within a template. -/

theorem str_data_append (a b : String) : (a ++ b).data = a.data ++ b.data := rfl

/-- The id's template tag: everything before the first colon. -/
def keyTag (s : String) : String := ⟨s.data.takeWhile (fun c => !(c == ':'))⟩

theorem takeWhile_until_colon (t : List Char) (h : ∀ c ∈ t, c ≠ ':') :
    ∀ rest : List Char, (t ++ ':' :: rest).takeWhile (fun c => !(c == ':')) = t := by
  induction t with
  | nil => intro rest; simp [List.takeWhile_cons]
  | cons c cs ih =>
    intro rest
    rw [List.cons_append, List.takeWhile_cons,
      if_pos (by simpa using h c (List.mem_cons_self c cs))]
    rw [ih (fun d hd => h d (List.mem_cons_of_mem c hd)) rest]

theorem keyTag_of_append (tag : String) (rest : List Char)
    (h : ∀ c ∈ tag.data, c ≠ ':') :
    keyTag ⟨tag.data ++ ':' :: rest⟩ = tag := by
  rw [keyTag]
  show (⟨(tag.data ++ ':' :: rest).takeWhile (fun c => !(c == ':'))⟩ : String) = tag
  rw [takeWhile_until_colon tag.data h rest]

theorem colon_split (xs₁ : List Char) (h₁ : ∀ c ∈ xs₁, c ≠ ':') :
    ∀ (xs₂ ys₁ ys₂ : List Char), (∀ c ∈ xs₂, c ≠ ':') →
      xs₁ ++ ':' :: ys₁ = xs₂ ++ ':' :: ys₂ → xs₁ = xs₂ ∧ ys₁ = ys₂ := by
  induction xs₁ with
  | nil =>
    intro xs₂ ys₁ ys₂ h₂ he
    cases xs₂ with
    | nil => simpa using he
    | cons b bs =>
      rw [List.nil_append, List.cons_append] at he
      have hb := (List.cons.injEq _ _ _ _).mp he
      exact absurd hb.1.symm (h₂ b (List.mem_cons_self b bs))
  | cons a as ih =>
    intro xs₂ ys₁ ys₂ h₂ he
    cases xs₂ with
    | nil =>
      rw [List.nil_append, List.cons_append] at he
      have hb := (List.cons.injEq _ _ _ _).mp he
      exact absurd hb.1 (h₁ a (List.mem_cons_self a as))
    | cons b bs =>
      rw [List.cons_append, List.cons_append] at he
      have hb := (List.cons.injEq _ _ _ _).mp he
      have hrec := ih (fun c hc => h₁ c (List.mem_cons_of_mem a hc)) bs ys₁ ys₂
        (fun c hc => h₂ c (List.mem_cons_of_mem b hc)) hb.2
      exact ⟨by rw [hb.1, hrec.1], hrec.2⟩

theorem natKey_data_no_colon (n : Nat) : ∀ c ∈ (natKey n).data, c ≠ ':' :=
  natChars_no_colon n

theorem sectionKey_data (n : Nat) :
    (courseSectionNodeId n).data = "section".data ++ ':' :: (natKey n).data := by
  rw [courseSectionNodeId, str_data_append,
    (by decide : ("section:" : String).data = "section".data ++ [':']),
    List.append_assoc]
  rfl

theorem moduleKey_data (a b : Nat) :
    (courseModuleNodeId a b).data
      = "module".data ++ ':' :: ((natKey a).data ++ ':' :: (natKey b).data) := by
  rw [courseModuleNodeId, str_data_append, str_data_append, str_data_append,
    (by decide : ("module:" : String).data = "module".data ++ [':']),
    (by decide : (":" : String).data = [':'])]
  simp [List.append_assoc]

theorem summaryKey_data (n : Nat) :
    (summaryKey n).data = "summary".data ++ ':' :: (natKey n).data := by
  rw [summaryKey, str_data_append,
    (by decide : ("summary:" : String).data = "summary".data ++ [':']),
    List.append_assoc]
  rfl

theorem sectionEmptyKey_data (n : Nat) :
    (sectionEmptyKey n).data = "section-empty".data ++ ':' :: (natKey n).data := by
  rw [sectionEmptyKey, str_data_append,
    (by decide : ("section-empty:" : String).data = "section-empty".data ++ [':']),
    List.append_assoc]
  rfl

theorem labelKey_data (a b : Nat) :
    (labelKey a b).data
      = "label".data ++ ':' :: ((natKey a).data ++ ':' :: (natKey b).data) := by
  rw [labelKey, str_data_append, str_data_append, str_data_append,
    (by decide : ("label:" : String).data = "label".data ++ [':']),
    (by decide : (":" : String).data = [':'])]
  simp [List.append_assoc]

theorem moduleDescriptionKey_data (a b : Nat) :
    (moduleDescriptionKey a b).data
      = "module-description".data
          ++ ':' :: ((natKey a).data ++ ':' :: (natKey b).data) := by
  rw [moduleDescriptionKey, str_data_append, str_data_append, str_data_append,
    (by decide :
      ("module-description:" : String).data = "module-description".data ++ [':']),
    (by decide : (":" : String).data = [':'])]
  simp [List.append_assoc]

theorem moduleUrlKey_data (a b : Nat) :
    (moduleUrlKey a b).data
      = "module-url".data ++ ':' :: ((natKey a).data ++ ':' :: (natKey b).data) := by
  rw [moduleUrlKey, str_data_append, str_data_append, str_data_append,
    (by decide : ("module-url:" : String).data = "module-url".data ++ [':']),
    (by decide : (":" : String).data = [':'])]
  simp [List.append_assoc]

theorem contentKey_data (a b i : Nat) :
    (contentKey a b i).data
      = "content".data
          ++ ':' :: ((natKey a).data
            ++ ':' :: ((natKey b).data ++ ':' :: (natKey i).data)) := by
  rw [contentKey, str_data_append, str_data_append, str_data_append,
    str_data_append, str_data_append,
    (by decide : ("content:" : String).data = "content".data ++ [':']),
    (by decide : (":" : String).data = [':'])]
  simp [List.append_assoc]

theorem keyTag_mk_data (s : String) (t : List Char)
    (h : s.data.takeWhile (fun c => !(c == ':')) = t) : keyTag s = ⟨t⟩ := by
  rw [keyTag, h]

theorem no_colon_str (t : String) (h : (t.data.all (fun c => !(c == ':'))) = true) :
    ∀ c ∈ t.data, c ≠ ':' := by
  intro c hc
  have := (List.all_eq_true.mp h) c hc
  simpa using this

theorem keyTag_sectionKey (n : Nat) : keyTag (courseSectionNodeId n) = "section" := by
  have := keyTag_of_append "section" (natKey n).data (by decide)
  rw [← this]
  show keyTag ⟨(courseSectionNodeId n).data⟩ = _
  rw [sectionKey_data n]

theorem keyTag_moduleKey (a b : Nat) : keyTag (courseModuleNodeId a b) = "module" := by
  have := keyTag_of_append "module"
    ((natKey a).data ++ ':' :: (natKey b).data) (by decide)
  rw [← this]
  show keyTag ⟨(courseModuleNodeId a b).data⟩ = _
  rw [moduleKey_data a b]

theorem keyTag_summaryKey (n : Nat) : keyTag (summaryKey n) = "summary" := by
  have := keyTag_of_append "summary" (natKey n).data (by decide)
  rw [← this]
  show keyTag ⟨(summaryKey n).data⟩ = _
  rw [summaryKey_data n]

theorem keyTag_sectionEmptyKey (n : Nat) :
    keyTag (sectionEmptyKey n) = "section-empty" := by
  have := keyTag_of_append "section-empty" (natKey n).data (by decide)
  rw [← this]
  show keyTag ⟨(sectionEmptyKey n).data⟩ = _
  rw [sectionEmptyKey_data n]

theorem keyTag_labelKey (a b : Nat) : keyTag (labelKey a b) = "label" := by
  have := keyTag_of_append "label"
    ((natKey a).data ++ ':' :: (natKey b).data) (by decide)
  rw [← this]
  show keyTag ⟨(labelKey a b).data⟩ = _
  rw [labelKey_data a b]

theorem keyTag_moduleDescriptionKey (a b : Nat) :
    keyTag (moduleDescriptionKey a b) = "module-description" := by
  have := keyTag_of_append "module-description"
    ((natKey a).data ++ ':' :: (natKey b).data) (by decide)
  rw [← this]
  show keyTag ⟨(moduleDescriptionKey a b).data⟩ = _
  rw [moduleDescriptionKey_data a b]

theorem keyTag_moduleUrlKey (a b : Nat) :
    keyTag (moduleUrlKey a b) = "module-url" := by
  have := keyTag_of_append "module-url"
    ((natKey a).data ++ ':' :: (natKey b).data) (by decide)
  rw [← this]
  show keyTag ⟨(moduleUrlKey a b).data⟩ = _
  rw [moduleUrlKey_data a b]

theorem keyTag_contentKey (a b i : Nat) :
    keyTag (contentKey a b i) = "content" := by
  have := keyTag_of_append "content"
    ((natKey a).data ++ ':' :: ((natKey b).data ++ ':' :: (natKey i).data))
    (by decide)
  rw [← this]
  show keyTag ⟨(contentKey a b i).data⟩ = _
  rw [contentKey_data a b i]

theorem key_ne_of_tag {s t : String} (h : keyTag s ≠ keyTag t) : s ≠ t :=
  fun e => h (congrArg keyTag e)

theorem sectionKey_inj {a b : Nat}
    (h : courseSectionNodeId a = courseSectionNodeId b) : a = b := by
  have hd := congrArg String.data h
  rw [sectionKey_data, sectionKey_data] at hd
  have := List.append_cancel_left hd
  exact natChars_injective (List.cons.injEq _ _ _ _ |>.mp this).2

theorem moduleKey_inj {a b a' b' : Nat}
    (h : courseModuleNodeId a b = courseModuleNodeId a' b') : a = a' ∧ b = b' := by
  have hd := congrArg String.data h
  rw [moduleKey_data, moduleKey_data] at hd
  have h2 := List.append_cancel_left hd
  have h3 := (List.cons.injEq _ _ _ _).mp h2
  have h4 := colon_split (natKey a).data (natKey_data_no_colon a)
    (natKey a').data (natKey b).data (natKey b').data
    (natKey_data_no_colon a') h3.2
  exact ⟨natChars_injective h4.1, natChars_injective h4.2⟩

/-! ### Membership shape of flattened rows -/

theorem mem_contentRows {sid mid : Nat} :
    ∀ {i : Nat} {cs : List MoodleCourseModuleContentItem} {r : CourseTreeRow},
      r ∈ contentRows sid mid i cs →
      ∃ j, i ≤ j ∧ j < i + cs.length ∧ r.kind = .contentItemKind
        ∧ r.id = contentKey sid mid j ∧ r.depth = 2 ∧ r.collapsible = false
        ∧ r.parentId = some (courseModuleNodeId sid mid) := by
  intro i cs
  induction cs generalizing i with
  | nil => intro r h; exact absurd h (List.not_mem_nil _)
  | cons c cs ih =>
    intro r h
    rw [contentRows] at h
    rcases List.mem_cons.mp h with h | h
    · exact ⟨i, le_refl i, by simp, by rw [h]; rfl, by rw [h]; rfl, by rw [h]; rfl,
        by rw [h]; rfl, by rw [h]; rfl⟩
    · obtain ⟨j, hij, hlt, rest⟩ := ih h
      exact ⟨j, by omega, by simp; omega, rest⟩

theorem mem_moduleRows {sid : Nat} {C : List String} {m : MoodleCourseModule}
    {r : CourseTreeRow} (h : r ∈ moduleRows sid C m) :
    (r.kind = .labelKind ∧ r.id = labelKey sid m.id ∧ r.depth = 1
      ∧ r.collapsible = false ∧ r.parentId = some (courseSectionNodeId sid))
    ∨ (r.kind = .moduleKind ∧ r.id = courseModuleNodeId sid m.id ∧ r.depth = 1
      ∧ r.collapsible = true ∧ r.parentId = some (courseSectionNodeId sid))
    ∨ (r.kind = .moduleDescriptionKind ∧ r.id = moduleDescriptionKey sid m.id
      ∧ r.parentId = some (courseModuleNodeId sid m.id))
    ∨ (r.kind = .moduleUrlKind ∧ r.id = moduleUrlKey sid m.id
      ∧ r.parentId = some (courseModuleNodeId sid m.id))
    ∨ (∃ i, i < m.contents.length ∧ r.kind = .contentItemKind
      ∧ r.id = contentKey sid m.id i
      ∧ r.parentId = some (courseModuleNodeId sid m.id)) := by
  rw [moduleRows] at h
  by_cases hl : normalizeType m.modname = "label"
  · rw [if_pos hl] at h
    have := List.mem_singleton.mp h
    exact Or.inl ⟨by rw [this], by rw [this], by rw [this], by rw [this], by rw [this]⟩
  · rw [if_neg hl] at h
    rcases List.mem_cons.mp h with h | h
    · exact Or.inr (Or.inl ⟨by rw [h], by rw [h], by rw [h], by rw [h], by rw [h]⟩)
    · by_cases hc : C.contains (courseModuleNodeId sid m.id)
      · rw [if_pos hc] at h
        exact absurd h (List.not_mem_nil _)
      · rw [if_neg hc] at h
        rcases List.mem_append.mp h with h | h
        · rcases List.mem_append.mp h with h | h
          · by_cases hd : stripHtml m.description = ""
            · rw [if_pos hd] at h
              exact absurd h (List.not_mem_nil _)
            · rw [if_neg hd] at h
              have := List.mem_singleton.mp h
              exact Or.inr (Or.inr (Or.inl ⟨by rw [this], by rw [this], by rw [this]⟩))
          · match hu : m.url with
            | none => rw [hu] at h; exact absurd h (List.not_mem_nil _)
            | some u =>
              rw [hu] at h
              have h2 : r ∈ (if u = "" then ([] : List CourseTreeRow)
                  else [⟨moduleUrlKey sid m.id, .moduleUrlKind, 2, u, "🔗",
                    false, false, some (courseModuleNodeId sid m.id)⟩]) := h
              by_cases hue : u = ""
              · rw [if_pos hue] at h2
                exact absurd h2 (List.not_mem_nil _)
              · rw [if_neg hue] at h2
                have := List.mem_singleton.mp h2
                exact Or.inr (Or.inr (Or.inr (Or.inl
                  ⟨by rw [this], by rw [this], by rw [this]⟩)))
        · obtain ⟨j, hij, hlt, hkind, hid, _, _, hpar⟩ := mem_contentRows h
          exact Or.inr (Or.inr (Or.inr (Or.inr ⟨j, by omega, hkind, hid, hpar⟩)))

theorem mem_modulesRows {sid : Nat} {C : List String} {r : CourseTreeRow} :
    ∀ {ms : List MoodleCourseModule}, r ∈ modulesRows sid C ms →
      ∃ m ∈ ms, r ∈ moduleRows sid C m := by
  intro ms
  induction ms with
  | nil => intro h; exact absurd h (List.not_mem_nil _)
  | cons m ms ih =>
    intro h
    rw [modulesRows] at h
    rcases List.mem_append.mp h with h | h
    · exact ⟨m, List.mem_cons_self m ms, h⟩
    · obtain ⟨m', hm', hr⟩ := ih h
      exact ⟨m', List.mem_cons_of_mem m hm', hr⟩

theorem mem_sectionRows {idx : Nat} {C : List String} {s : MoodleCourseSection}
    {r : CourseTreeRow} (h : r ∈ sectionRows idx C s) :
    (r.kind = .sectionKind ∧ r.id = courseSectionNodeId s.id ∧ r.depth = 0
      ∧ r.parentId = none)
    ∨ (r.kind = .summaryKind ∧ (r.id = summaryKey s.id ∨ r.id = sectionEmptyKey s.id)
      ∧ r.depth = 1 ∧ r.parentId = some (courseSectionNodeId s.id))
    ∨ ∃ m ∈ s.modules, r ∈ moduleRows s.id C m := by
  rw [sectionRows] at h
  rcases List.mem_cons.mp h with h | h
  · exact Or.inl ⟨by rw [h], by rw [h], by rw [h], by rw [h]⟩
  · by_cases hc : C.contains (courseSectionNodeId s.id)
    · rw [if_pos hc] at h
      exact absurd h (List.not_mem_nil _)
    · rw [if_neg hc] at h
      rcases List.mem_append.mp h with h | h
      · by_cases hs : stripHtml s.summary = ""
        · rw [if_pos hs] at h
          exact absurd h (List.not_mem_nil _)
        · rw [if_neg hs] at h
          have := List.mem_singleton.mp h
          exact Or.inr (Or.inl ⟨by rw [this], Or.inl (by rw [this]), by rw [this],
            by rw [this]⟩)
      · by_cases hm : s.modules.isEmpty
        · rw [if_pos hm] at h
          have := List.mem_singleton.mp h
          exact Or.inr (Or.inl ⟨by rw [this], Or.inr (by rw [this]), by rw [this],
            by rw [this]⟩)
        · rw [if_neg hm] at h
          exact Or.inr (Or.inr (mem_modulesRows h))

theorem mem_sectionsRows {C : List String} {r : CourseTreeRow} :
    ∀ {idx : Nat} {S : List MoodleCourseSection}, r ∈ sectionsRows C idx S →
      ∃ s ∈ S, ∃ i, r ∈ sectionRows i C s := by
  intro idx S
  induction S generalizing idx with
  | nil => intro h; exact absurd h (List.not_mem_nil _)
  | cons s rest ih =>
    intro h
    rw [sectionsRows] at h
    rcases List.mem_append.mp h with h | h
    · exact ⟨s, List.mem_cons_self s rest, idx, h⟩
    · obtain ⟨s', hs', i, hr⟩ := ih h
      exact ⟨s', List.mem_cons_of_mem s hs', i, hr⟩

theorem mem_buildCourseTreeRows {S : List MoodleCourseSection} {C : List String}
    {r : CourseTreeRow} (h : r ∈ buildCourseTreeRows S C) :
    r = emptyPlaceholderRow ∨ ∃ s ∈ S, ∃ i, r ∈ sectionRows i C s := by
  rw [buildCourseTreeRows] at h
  by_cases he : S.isEmpty
  · rw [if_pos he] at h
    exact Or.inl (List.mem_singleton.mp h)
  · rw [if_neg he] at h
    exact Or.inr (mem_sectionsRows h)

theorem parent_shape {S : List MoodleCourseSection} {C : List String}
    {r : CourseTreeRow} {p : String} (h : r ∈ buildCourseTreeRows S C)
    (hp : r.parentId = some p) :
    (∃ n, p = courseSectionNodeId n) ∨ ∃ a b, p = courseModuleNodeId a b := by
  rcases mem_buildCourseTreeRows h with he | ⟨s, _, i, hr⟩
  · rw [he] at hp
    exact absurd hp (by simp [emptyPlaceholderRow])
  · rcases mem_sectionRows hr with ⟨_, _, _, hpar⟩ | ⟨_, _, _, hpar⟩ | ⟨m, _, hm⟩
    · rw [hpar] at hp
      exact absurd hp (by simp)
    · rw [hpar] at hp
      exact Or.inl ⟨s.id, (Option.some.inj hp).symm⟩
    · rcases mem_moduleRows hm with ⟨_, _, _, _, hpar⟩ | ⟨_, _, _, _, hpar⟩
        | ⟨_, _, hpar⟩ | ⟨_, _, hpar⟩ | ⟨_, _, _, _, hpar⟩ <;> rw [hpar] at hp
      · exact Or.inl ⟨s.id, (Option.some.inj hp).symm⟩
      · exact Or.inl ⟨s.id, (Option.some.inj hp).symm⟩
      · exact Or.inr ⟨s.id, m.id, (Option.some.inj hp).symm⟩
      · exact Or.inr ⟨s.id, m.id, (Option.some.inj hp).symm⟩
      · exact Or.inr ⟨s.id, m.id, (Option.some.inj hp).symm⟩

/-- Claim C7: a label activity flattens to exactly one depth-1,
non-collapsible label row with no children of any kind — even when it
carries a description, a direct URL and content items — and, in any
flattened output, no row has a label row as its parent. -/
theorem claim_C7 :
    (∀ sid C m, normalizeType m.modname = "label" →
        moduleRows sid C m = [⟨labelKey sid m.id, .labelKind, 1, labelText m,
          "🏷", false, false, some (courseSectionNodeId sid)⟩])
    ∧ (∀ S C r r', r ∈ buildCourseTreeRows S C → r.kind = .labelKind →
        r.depth = 1 ∧ r.collapsible = false
        ∧ (r' ∈ buildCourseTreeRows S C → r'.parentId ≠ some r.id)) := by
  constructor
  · intro sid C m h
    rw [moduleRows, if_pos h]
  · intro S C r r' hr hkind
    have hlab : r.depth = 1 ∧ r.collapsible = false ∧ ∃ a b, r.id = labelKey a b := by
      rcases mem_buildCourseTreeRows hr with he | ⟨s, _, i, hsec⟩
      · rw [he] at hkind
        exact absurd hkind (by decide)
      · rcases mem_sectionRows hsec with ⟨hk, _⟩ | ⟨hk, _⟩ | ⟨m, _, hm⟩
        · rw [hk] at hkind; exact absurd hkind (by decide)
        · rw [hk] at hkind; exact absurd hkind (by decide)
        · rcases mem_moduleRows hm with ⟨_, hid, hd, hc, _⟩ | ⟨hk, _⟩
            | ⟨hk, _⟩ | ⟨hk, _⟩ | ⟨_, _, hk, _⟩
          · exact ⟨hd, hc, s.id, m.id, hid⟩
          · rw [hk] at hkind; exact absurd hkind (by decide)
          · rw [hk] at hkind; exact absurd hkind (by decide)
          · rw [hk] at hkind; exact absurd hkind (by decide)
          · rw [hk] at hkind; exact absurd hkind (by decide)
    obtain ⟨hd, hc, a, b, hid⟩ := hlab
    refine ⟨hd, hc, fun hr' hp => ?_⟩
    rcases parent_shape hr' hp with ⟨n, hn⟩ | ⟨x, y, hxy⟩
    · rw [hid] at hn
      exact key_ne_of_tag (by
        rw [keyTag_labelKey, keyTag_sectionKey]
        decide) hn
    · rw [hid] at hxy
      exact key_ne_of_tag (by
        rw [keyTag_labelKey, keyTag_moduleKey]
        decide) hxy

def labelModule : MoodleCourseModule :=
  { id := 3, name := "L", modname := some "label",
    description := some "Hello", url := some "http://x",
    contents := [{ filename := some "f.txt" }] }

theorem claim_C7_witness :
    moduleRows 1 [] labelModule
      = [⟨labelKey 1 3, .labelKind, 1, labelText labelModule, "🏷", false, false,
        some (courseSectionNodeId 1)⟩] :=
  claim_C7.1 1 [] labelModule (by decide)

/-! ### Claim C3: row ids are position-independent -/

/-- The ids the specification assigns to the rows of one activity: computed
from the section and module identifiers alone — except content-item rows,
whose id embeds the item's index within the module's content list. -/
def moduleIdsSpec (C : List String) (sid : Nat) (m : MoodleCourseModule) :
    List String :=
  if normalizeType m.modname = "label" then [labelKey sid m.id]
  else
    courseModuleNodeId sid m.id
    :: (if C.contains (courseModuleNodeId sid m.id) then []
        else
          (if stripHtml m.description = "" then []
           else [moduleDescriptionKey sid m.id])
          ++ (match m.url with
              | some u => if u = "" then [] else [moduleUrlKey sid m.id]
              | none => [])
          ++ (List.range m.contents.length).map (contentKey sid m.id))

/-- The ids the specification assigns to the rows of one section: computed
from the section's identifier data alone, independently of the section's
position in the section list. -/
def sectionIdsSpec (C : List String) (s : MoodleCourseSection) : List String :=
  courseSectionNodeId s.id
  :: (if C.contains (courseSectionNodeId s.id) then []
      else
        (if stripHtml s.summary = "" then [] else [summaryKey s.id])
        ++ (if s.modules.isEmpty then [sectionEmptyKey s.id]
            else s.modules.flatMap (moduleIdsSpec C s.id)))

theorem contentRows_map_id (sid mid : Nat) :
    ∀ (cs : List MoodleCourseModuleContentItem) (i : Nat),
      (contentRows sid mid i cs).map (·.id)
        = (List.range cs.length).map (fun j => contentKey sid mid (i + j)) := by
  intro cs
  induction cs with
  | nil => intro i; rfl
  | cons c cs ih =>
    intro i
    rw [contentRows, List.map_cons, ih (i + 1),
      show (c :: cs).length = cs.length + 1 from rfl, List.range_succ_eq_map,
      List.map_cons, List.map_map]
    refine congrArg₂ List.cons ?_ ?_
    · show contentKey sid mid i = contentKey sid mid (i + 0)
      rw [Nat.add_zero]
    · apply List.map_congr_left
      intro j _
      show contentKey sid mid (i + 1 + j) = contentKey sid mid (i + (j + 1))
      rw [show i + 1 + j = i + (j + 1) by omega]

theorem moduleRows_map_id (sid : Nat) (C : List String) (m : MoodleCourseModule) :
    (moduleRows sid C m).map (·.id) = moduleIdsSpec C sid m := by
  rw [moduleRows, moduleIdsSpec]
  by_cases hl : normalizeType m.modname = "label"
  · rw [if_pos hl, if_pos hl]
    rfl
  · rw [if_neg hl, if_neg hl, List.map_cons]
    refine congrArg₂ List.cons rfl ?_
    by_cases hc : C.contains (courseModuleNodeId sid m.id)
    · rw [if_pos hc, if_pos hc]
      rfl
    · rw [if_neg hc, if_neg hc, List.map_append, List.map_append]
      refine congrArg₂ (· ++ ·) (congrArg₂ (· ++ ·) ?_ ?_) ?_
      · by_cases hd : stripHtml m.description = ""
        · rw [if_pos hd, if_pos hd]
          rfl
        · rw [if_neg hd, if_neg hd]
          rfl
      · cases hu : m.url with
        | none => rfl
        | some u =>
          show (if u = "" then ([] : List CourseTreeRow)
              else [⟨moduleUrlKey sid m.id, .moduleUrlKind, 2, u, "🔗", false,
                false, some (courseModuleNodeId sid m.id)⟩]).map (·.id)
            = (if u = "" then [] else [moduleUrlKey sid m.id])
          split_ifs <;> rfl
      · rw [contentRows_map_id sid m.id m.contents 0]
        apply List.map_congr_left
        intro j _
        rw [Nat.zero_add]

theorem modulesRows_map_id (sid : Nat) (C : List String) :
    ∀ ms : List MoodleCourseModule,
      (modulesRows sid C ms).map (·.id) = ms.flatMap (moduleIdsSpec C sid) := by
  intro ms
  induction ms with
  | nil => rfl
  | cons m ms ih =>
    rw [modulesRows, List.map_append, moduleRows_map_id, ih, List.flatMap_cons]

theorem sectionRows_map_id (idx : Nat) (C : List String) (s : MoodleCourseSection) :
    (sectionRows idx C s).map (·.id) = sectionIdsSpec C s := by
  rw [sectionRows, sectionIdsSpec, List.map_cons]
  refine congrArg₂ List.cons rfl ?_
  by_cases hc : C.contains (courseSectionNodeId s.id)
  · rw [if_pos hc, if_pos hc]
    rfl
  · rw [if_neg hc, if_neg hc, List.map_append]
    refine congrArg₂ (· ++ ·) ?_ ?_
    · by_cases hs : stripHtml s.summary = ""
      · rw [if_pos hs, if_pos hs]
        rfl
      · rw [if_neg hs, if_neg hs]
        rfl
    · by_cases hm : s.modules.isEmpty
      · rw [if_pos hm, if_pos hm]
        rfl
      · rw [if_neg hm, if_neg hm]
        exact modulesRows_map_id s.id C s.modules

theorem sectionsRows_map_id (C : List String) :
    ∀ (S : List MoodleCourseSection) (idx : Nat),
      (sectionsRows C idx S).map (·.id) = S.flatMap (sectionIdsSpec C) := by
  intro S
  induction S with
  | nil => intro idx; rfl
  | cons s rest ih =>
    intro idx
    rw [sectionsRows, List.map_append, sectionRows_map_id, ih (idx + 1),
      List.flatMap_cons]

/-- Claim C3 (amended): for a non-empty section list, the sequence of row ids
produced by the flattener is obtained per section by `sectionIdsSpec`, a
function of the section's own identifier data (and the collapse set) only —
so a row's id never depends on the position of its section or activity in
any sequence.  Content-item rows are the exception forced by the code:
`sectionIdsSpec` identifies them by their index within the enclosing
module's content list, so their ids are stable only while that index is. -/
theorem claim_C3 (S : List MoodleCourseSection) (C : List String) (h : S ≠ []) :
    (buildCourseTreeRows S C).map (·.id) = S.flatMap (sectionIdsSpec C) := by
  rw [buildCourseTreeRows, if_neg (by simpa using h)]
  exact sectionsRows_map_id C S 0

def cexItemA : MoodleCourseModuleContentItem := { filename := some "guide.pdf" }

def cexItemB : MoodleCourseModuleContentItem := { filename := some "extra.txt" }

def cexSectionA : MoodleCourseSection :=
  { id := 1,
    modules := [{ id := 2, name := "M", modname := some "resource",
                  contents := [cexItemA] }] }

def cexSectionBA : MoodleCourseSection :=
  { id := 1,
    modules := [{ id := 2, name := "M", modname := some "resource",
                  contents := [cexItemB, cexItemA] }] }

/-- Claim C3, counterexample to the claim as written: the same content item
(`guide.pdf`, in module 2 of section 1) receives id `content:1:2:0` when it
is the module's first content item and id `content:1:2:1` when another item
is inserted before it — the id depends on the item's position among its
siblings, not only on source identifiers. -/
theorem claim_C3_counterexample :
    ((buildCourseTreeRows [cexSectionA] []).filter
        (fun r => r.text == "guide.pdf")).map (·.id) = ["content:1:2:0"]
    ∧ ((buildCourseTreeRows [cexSectionBA] []).filter
        (fun r => r.text == "guide.pdf")).map (·.id) = ["content:1:2:1"] := by
  constructor <;> decide

theorem claim_C3_witness :
    (buildCourseTreeRows [cexSectionA] []).map (·.id)
      = [cexSectionA].flatMap (sectionIdsSpec []) :=
  claim_C3 [cexSectionA] [] (by decide)

/-! ### Claim C2: parent resolution — structure equations -/

def labelRowOf (sid : Nat) (m : MoodleCourseModule) : CourseTreeRow :=
  ⟨labelKey sid m.id, .labelKind, 1, labelText m, "🏷", false, false,
    some (courseSectionNodeId sid)⟩

def moduleHeadRow (sid : Nat) (C : List String) (m : MoodleCourseModule) :
    CourseTreeRow :=
  ⟨courseModuleNodeId sid m.id, .moduleKind, 1, m.name,
    resolveModuleIcon m.modname, true,
    !(C.contains (courseModuleNodeId sid m.id)), some (courseSectionNodeId sid)⟩

/-- The child rows of an expanded non-label module. -/
def moduleChildRows (sid : Nat) (m : MoodleCourseModule) : List CourseTreeRow :=
  (let d := stripHtml m.description
   if d = "" then []
   else [⟨moduleDescriptionKey sid m.id, .moduleDescriptionKind, 2, d,
     "•", false, false, some (courseModuleNodeId sid m.id)⟩])
  ++ (match m.url with
      | some u =>
        if u = "" then []
        else [⟨moduleUrlKey sid m.id, .moduleUrlKind, 2, u, "🔗",
          false, false, some (courseModuleNodeId sid m.id)⟩]
      | none => [])
  ++ contentRows sid m.id 0 m.contents

theorem moduleRows_eq (sid : Nat) (C : List String) (m : MoodleCourseModule) :
    moduleRows sid C m
      = if normalizeType m.modname = "label" then [labelRowOf sid m]
        else moduleHeadRow sid C m
          :: (if C.contains (courseModuleNodeId sid m.id) then []
              else moduleChildRows sid m) := rfl

def sectionHeadRow (idx : Nat) (C : List String) (s : MoodleCourseSection) :
    CourseTreeRow :=
  ⟨courseSectionNodeId s.id, .sectionKind, 0,
    jsOrStr (s.name.map jsTrim)
      ("Section " ++ natKey (s.sectionNum.getD (idx + 1))),
    "📁", true, !(C.contains (courseSectionNodeId s.id)), none⟩

/-- The child rows of an expanded section. -/
def sectionChildRows (C : List String) (s : MoodleCourseSection) :
    List CourseTreeRow :=
  (let sm := stripHtml s.summary
   if sm = "" then []
   else [⟨summaryKey s.id, .summaryKind, 1, sm, "🗒", false, false,
     some (courseSectionNodeId s.id)⟩])
  ++ (if s.modules.isEmpty then
        [⟨sectionEmptyKey s.id, .summaryKind, 1,
          "(No activities in this section)", "•", false, false,
          some (courseSectionNodeId s.id)⟩]
      else modulesRows s.id C s.modules)

theorem sectionRows_eq (idx : Nat) (C : List String) (s : MoodleCourseSection) :
    sectionRows idx C s
      = sectionHeadRow idx C s
        :: (if C.contains (courseSectionNodeId s.id) then []
            else sectionChildRows C s) := rfl

theorem mem_moduleChildRows {sid : Nat} {m : MoodleCourseModule}
    {r : CourseTreeRow} (h : r ∈ moduleChildRows sid m) :
    (r.id = moduleDescriptionKey sid m.id
      ∧ r.parentId = some (courseModuleNodeId sid m.id))
    ∨ (r.id = moduleUrlKey sid m.id
      ∧ r.parentId = some (courseModuleNodeId sid m.id))
    ∨ (∃ i, i < m.contents.length ∧ r.id = contentKey sid m.id i
      ∧ r.parentId = some (courseModuleNodeId sid m.id)) := by
  rw [moduleChildRows] at h
  rcases List.mem_append.mp h with h | h
  · rcases List.mem_append.mp h with h | h
    · by_cases hd : stripHtml m.description = ""
      · rw [if_pos hd] at h
        exact absurd h (List.not_mem_nil _)
      · rw [if_neg hd] at h
        have := List.mem_singleton.mp h
        exact Or.inl ⟨by rw [this], by rw [this]⟩
    · cases hu : m.url with
      | none => rw [hu] at h; exact absurd h (List.not_mem_nil _)
      | some u =>
        rw [hu] at h
        have h2 : r ∈ (if u = "" then ([] : List CourseTreeRow)
            else [⟨moduleUrlKey sid m.id, .moduleUrlKind, 2, u, "🔗",
              false, false, some (courseModuleNodeId sid m.id)⟩]) := h
        by_cases hue : u = ""
        · rw [if_pos hue] at h2
          exact absurd h2 (List.not_mem_nil _)
        · rw [if_neg hue] at h2
          have := List.mem_singleton.mp h2
          exact Or.inr (Or.inl ⟨by rw [this], by rw [this]⟩)
  · obtain ⟨j, _, hlt, _, hid, _, _, hpar⟩ := mem_contentRows h
    exact Or.inr (Or.inr ⟨j, by omega, hid, hpar⟩)

theorem mem_sectionChildRows {C : List String} {s : MoodleCourseSection}
    {r : CourseTreeRow} (h : r ∈ sectionChildRows C s) :
    ((r.id = summaryKey s.id ∨ r.id = sectionEmptyKey s.id)
      ∧ r.parentId = some (courseSectionNodeId s.id))
    ∨ ∃ m ∈ s.modules, r ∈ moduleRows s.id C m := by
  rw [sectionChildRows] at h
  rcases List.mem_append.mp h with h | h
  · by_cases hs : stripHtml s.summary = ""
    · rw [if_pos hs] at h
      exact absurd h (List.not_mem_nil _)
    · rw [if_neg hs] at h
      have := List.mem_singleton.mp h
      exact Or.inl ⟨Or.inl (by rw [this]), by rw [this]⟩
  · by_cases hm : s.modules.isEmpty
    · rw [if_pos hm] at h
      have := List.mem_singleton.mp h
      exact Or.inl ⟨Or.inr (by rw [this]), by rw [this]⟩
    · rw [if_neg hm] at h
      exact Or.inr (mem_modulesRows h)

/-- Every row's `parentId`, when present, is either one of the assumed
`anchors` or the id of a row appearing strictly earlier in the list. -/
def okAt (anchors : List String) (rows : List CourseTreeRow) : Prop :=
  ∀ (k : Nat) (r : CourseTreeRow) (p : String), rows[k]? = some r →
    r.parentId = some p →
    p ∈ anchors ∨ ∃ (j : Nat) (r' : CourseTreeRow),
      j < k ∧ rows[j]? = some r' ∧ r'.id = p

theorem okAt_of_forall {A : List String} {rows : List CourseTreeRow}
    (h : ∀ r ∈ rows, ∀ p, r.parentId = some p → p ∈ A) : okAt A rows := by
  intro k r p hk hp
  exact Or.inl (h r (List.getElem?_mem hk) p hp)

theorem okAt_mono {A B : List String} {rows : List CourseTreeRow}
    (h : okAt A rows) (hab : ∀ x ∈ A, x ∈ B) : okAt B rows := by
  intro k r p hk hp
  rcases h k r p hk hp with hA | hj
  · exact Or.inl (hab p hA)
  · exact Or.inr hj

theorem okAt_append {A : List String} {xs ys : List CourseTreeRow}
    (hx : okAt A xs) (hy : okAt (xs.map (·.id) ++ A) ys) : okAt A (xs ++ ys) := by
  intro k r p hk hp
  by_cases hlt : k < xs.length
  · rw [List.getElem?_append_left hlt] at hk
    rcases hx k r p hk hp with hA | ⟨j, r', hjk, hj, hid⟩
    · exact Or.inl hA
    · exact Or.inr ⟨j, r', hjk,
        by rw [List.getElem?_append_left (lt_trans hjk hlt)]; exact hj, hid⟩
  · rw [List.getElem?_append_right (le_of_not_lt hlt)] at hk
    rcases hy (k - xs.length) r p hk hp with hA | ⟨j, r', hjk, hj, hid⟩
    · rcases List.mem_append.mp hA with hmem | hA
      · obtain ⟨x, hx', hxid⟩ := List.mem_map.mp hmem
        obtain ⟨j, hj⟩ := List.getElem?_of_mem hx'
        obtain ⟨hjlt, _⟩ := List.getElem?_eq_some_iff.mp hj
        refine Or.inr ⟨j, x, by omega,
          by rw [List.getElem?_append_left hjlt]; exact hj, hxid⟩
      · exact Or.inl hA
    · refine Or.inr ⟨xs.length + j, r', by omega, ?_, hid⟩
      rw [List.getElem?_append_right (by omega)]
      rw [show xs.length + j - xs.length = j by omega]
      exact hj

theorem okAt_cons {A : List String} {x : CourseTreeRow} {rest : List CourseTreeRow}
    (hx : ∀ p, x.parentId = some p → p ∈ A) (hr : okAt (x.id :: A) rest) :
    okAt A (x :: rest) :=
  @okAt_append A [x] rest
    (okAt_of_forall (fun r hm p hp => by
      rw [List.mem_singleton.mp hm] at hp
      exact hx p hp))
    hr

theorem okAt_moduleChildRows (sid : Nat) (m : MoodleCourseModule)
    (A : List String) (hA : courseModuleNodeId sid m.id ∈ A) :
    okAt A (moduleChildRows sid m) := by
  refine okAt_of_forall (fun r hm p hp => ?_)
  rcases mem_moduleChildRows hm with ⟨_, hpar⟩ | ⟨_, hpar⟩ | ⟨_, _, _, hpar⟩ <;>
    rw [hpar] at hp <;> rw [← Option.some.inj hp] <;> exact hA

theorem okAt_moduleRows (sid : Nat) (C : List String) (m : MoodleCourseModule)
    (A : List String) (hA : courseSectionNodeId sid ∈ A) :
    okAt A (moduleRows sid C m) := by
  rw [moduleRows_eq]
  by_cases hl : normalizeType m.modname = "label"
  · rw [if_pos hl]
    refine okAt_of_forall (fun r hm p hp => ?_)
    rw [List.mem_singleton.mp hm] at hp
    rw [← Option.some.inj hp]
    exact hA
  · rw [if_neg hl]
    refine okAt_cons (fun p hp => ?_) ?_
    · rw [← Option.some.inj hp]
      exact hA
    · by_cases hc : C.contains (courseModuleNodeId sid m.id)
      · rw [if_pos hc]
        intro k r p hk
        simp at hk
      · rw [if_neg hc]
        exact okAt_moduleChildRows sid m _ (List.mem_cons_self _ _)

theorem okAt_modulesRows (sid : Nat) (C : List String) (A : List String)
    (hA : courseSectionNodeId sid ∈ A) :
    ∀ ms : List MoodleCourseModule, okAt A (modulesRows sid C ms) := by
  intro ms
  induction ms with
  | nil => intro k r p hk _; simp [modulesRows] at hk
  | cons m ms ih =>
    rw [modulesRows]
    exact okAt_append (okAt_moduleRows sid C m A hA)
      (okAt_mono ih (fun x hx => List.mem_append_right _ hx))

theorem okAt_sectionChildRows (C : List String) (s : MoodleCourseSection)
    (A : List String) (hA : courseSectionNodeId s.id ∈ A) :
    okAt A (sectionChildRows C s) := by
  rw [sectionChildRows]
  refine okAt_append ?_ ?_
  · refine okAt_of_forall (fun r hm p hp => ?_)
    by_cases hs : stripHtml s.summary = ""
    · rw [if_pos hs] at hm
      exact absurd hm (List.not_mem_nil _)
    · rw [if_neg hs] at hm
      rw [List.mem_singleton.mp hm] at hp
      rw [← Option.some.inj hp]
      exact hA
  · by_cases hm : s.modules.isEmpty
    · rw [if_pos hm]
      refine okAt_of_forall (fun r hmem p hp => ?_)
      rw [List.mem_singleton.mp hmem] at hp
      rw [← Option.some.inj hp]
      exact List.mem_append_right _ hA
    · rw [if_neg hm]
      exact okAt_modulesRows s.id C _ (List.mem_append_right _ hA) s.modules

theorem okAt_sectionRows (idx : Nat) (C : List String) (s : MoodleCourseSection) :
    okAt [] (sectionRows idx C s) := by
  rw [sectionRows_eq]
  refine okAt_cons (fun p hp => by simp [sectionHeadRow] at hp) ?_
  by_cases hc : C.contains (courseSectionNodeId s.id)
  · rw [if_pos hc]
    intro k r p hk
    simp at hk
  · rw [if_neg hc]
    exact okAt_sectionChildRows C s _ (List.mem_cons_self _ _)

theorem okAt_sectionsRows (C : List String) :
    ∀ (S : List MoodleCourseSection) (idx : Nat), okAt [] (sectionsRows C idx S) := by
  intro S
  induction S with
  | nil => intro idx k r p hk _; simp [sectionsRows] at hk
  | cons s rest ih =>
    intro idx
    rw [sectionsRows]
    exact okAt_append (okAt_sectionRows idx C s)
      (okAt_mono (ih (idx + 1)) (fun x hx => List.mem_append_right _ hx))

theorem okAt_buildCourseTreeRows (S : List MoodleCourseSection) (C : List String) :
    okAt [] (buildCourseTreeRows S C) := by
  rw [buildCourseTreeRows]
  by_cases he : S.isEmpty
  · rw [if_pos he]
    refine okAt_of_forall (fun r hm p hp => ?_)
    rw [List.mem_singleton.mp hm] at hp
    exact absurd hp (by simp [emptyPlaceholderRow])
  · rw [if_neg he]
    exact okAt_sectionsRows C S 0

theorem ne_of_beq_ne {a b : String} (h : a ≠ b) : ¬(a == b) = true :=
  fun he => h (beq_iff_eq.mp he)

theorem moduleRows_countP_secKey (sid : Nat) (C : List String)
    (m : MoodleCourseModule) (a : Nat) :
    (moduleRows sid C m).countP (fun r => r.id == courseSectionNodeId a) = 0 := by
  rw [List.countP_eq_zero]
  intro r hm
  rcases mem_moduleRows hm with ⟨_, hid, _⟩ | ⟨_, hid, _⟩ | ⟨_, hid, _⟩
    | ⟨_, hid, _⟩ | ⟨_, _, _, hid, _⟩ <;> rw [hid] <;>
    refine ne_of_beq_ne (key_ne_of_tag ?_)
  · rw [keyTag_labelKey, keyTag_sectionKey]; decide
  · rw [keyTag_moduleKey, keyTag_sectionKey]; decide
  · rw [keyTag_moduleDescriptionKey, keyTag_sectionKey]; decide
  · rw [keyTag_moduleUrlKey, keyTag_sectionKey]; decide
  · rw [keyTag_contentKey, keyTag_sectionKey]; decide

theorem modulesRows_countP_secKey (sid : Nat) (C : List String) (a : Nat) :
    ∀ ms : List MoodleCourseModule,
      (modulesRows sid C ms).countP (fun r => r.id == courseSectionNodeId a) = 0 := by
  intro ms
  induction ms with
  | nil => rfl
  | cons m ms ih =>
    rw [modulesRows, List.countP_append, moduleRows_countP_secKey, ih]

theorem sectionChildRows_countP_secKey (C : List String) (s : MoodleCourseSection)
    (a : Nat) :
    (sectionChildRows C s).countP (fun r => r.id == courseSectionNodeId a) = 0 := by
  rw [sectionChildRows, List.countP_append]
  have h1 : (let sm := stripHtml s.summary
      if sm = "" then ([] : List CourseTreeRow)
      else [⟨summaryKey s.id, .summaryKind, 1, sm, "🗒", false, false,
        some (courseSectionNodeId s.id)⟩]).countP
      (fun r => r.id == courseSectionNodeId a) = 0 := by
    rw [List.countP_eq_zero]
    intro r hm
    by_cases hs : stripHtml s.summary = ""
    · rw [if_pos hs] at hm
      exact absurd hm (List.not_mem_nil _)
    · rw [if_neg hs] at hm
      rw [List.mem_singleton.mp hm]
      refine ne_of_beq_ne (key_ne_of_tag ?_)
      rw [keyTag_summaryKey, keyTag_sectionKey]
      decide
  have h2 : (if s.modules.isEmpty then
      [⟨sectionEmptyKey s.id, .summaryKind, 1,
        "(No activities in this section)", "•", false, false,
        some (courseSectionNodeId s.id)⟩]
      else modulesRows s.id C s.modules).countP
      (fun r => r.id == courseSectionNodeId a) = 0 := by
    by_cases hm : s.modules.isEmpty
    · rw [if_pos hm, List.countP_eq_zero]
      intro r hmem
      rw [List.mem_singleton.mp hmem]
      refine ne_of_beq_ne (key_ne_of_tag ?_)
      rw [keyTag_sectionEmptyKey, keyTag_sectionKey]
      decide
    · rw [if_neg hm]
      exact modulesRows_countP_secKey s.id C a s.modules
  rw [h1, h2]

theorem sectionRows_countP_secKey (idx : Nat) (C : List String)
    (s : MoodleCourseSection) (a : Nat) :
    (sectionRows idx C s).countP (fun r => r.id == courseSectionNodeId a)
      = if s.id = a then 1 else 0 := by
  rw [sectionRows_eq, List.countP_cons]
  have htail : (if C.contains (courseSectionNodeId s.id) then []
      else sectionChildRows C s).countP (fun r => r.id == courseSectionNodeId a)
      = 0 := by
    by_cases hc : C.contains (courseSectionNodeId s.id)
    · rw [if_pos hc]; rfl
    · rw [if_neg hc]
      exact sectionChildRows_countP_secKey C s a
  rw [htail]
  show (0 : Nat) + (if ((sectionHeadRow idx C s).id == courseSectionNodeId a) = true
    then 1 else 0) = if s.id = a then 1 else 0
  rw [Nat.zero_add]
  by_cases hsa : s.id = a
  · rw [if_pos hsa, if_pos (beq_iff_eq.mpr (by rw [sectionHeadRow, hsa]))]
  · rw [if_neg hsa, if_neg (fun he : ((sectionHeadRow idx C s).id
      == courseSectionNodeId a) = true => hsa (sectionKey_inj (beq_iff_eq.mp he)))]

theorem countP_id_eq_count_map (a : Nat) :
    ∀ S : List MoodleCourseSection,
      S.countP (fun s => s.id == a) = (S.map (·.id)).count a := by
  intro S
  induction S with
  | nil => rfl
  | cons s rest ih =>
    rw [List.countP_cons, List.map_cons, List.count_cons, ih]

theorem sectionsRows_countP_secKey (C : List String) (a : Nat) :
    ∀ (S : List MoodleCourseSection) (idx : Nat),
      (sectionsRows C idx S).countP (fun r => r.id == courseSectionNodeId a)
        = S.countP (fun s => s.id == a) := by
  intro S
  induction S with
  | nil => intro idx; rfl
  | cons s rest ih =>
    intro idx
    rw [sectionsRows, List.countP_append, sectionRows_countP_secKey, ih (idx + 1),
      List.countP_cons]
    by_cases hsa : s.id = a
    · rw [if_pos hsa, if_pos (beq_iff_eq.mpr hsa)]
      omega
    · rw [if_neg hsa, if_neg (fun he : (s.id == a) = true => hsa (beq_iff_eq.mp he))]
      omega

theorem build_countP_secKey_le_one (S : List MoodleCourseSection) (C : List String)
    (a : Nat) (hS : (S.map (·.id)).Nodup) :
    (buildCourseTreeRows S C).countP (fun r => r.id == courseSectionNodeId a)
      ≤ 1 := by
  rw [buildCourseTreeRows]
  by_cases he : S.isEmpty
  · rw [if_pos he]
    have : ¬(emptyPlaceholderRow.id == courseSectionNodeId a) = true := by
      refine ne_of_beq_ne (key_ne_of_tag ?_)
      rw [keyTag_sectionKey]
      decide
    simp [List.countP_cons, this]
  · rw [if_neg he, sectionsRows_countP_secKey, countP_id_eq_count_map]
    exact List.nodup_iff_count_le_one.mp hS a

theorem moduleChildRows_countP_modKey (sid : Nat) (m : MoodleCourseModule)
    (a b : Nat) :
    (moduleChildRows sid m).countP (fun r => r.id == courseModuleNodeId a b)
      = 0 := by
  rw [List.countP_eq_zero]
  intro r hm
  rcases mem_moduleChildRows hm with ⟨hid, _⟩ | ⟨hid, _⟩ | ⟨_, _, hid, _⟩ <;>
    rw [hid] <;> refine ne_of_beq_ne (key_ne_of_tag ?_)
  · rw [keyTag_moduleDescriptionKey, keyTag_moduleKey]; decide
  · rw [keyTag_moduleUrlKey, keyTag_moduleKey]; decide
  · rw [keyTag_contentKey, keyTag_moduleKey]; decide

theorem moduleRows_countP_modKey (sid : Nat) (C : List String)
    (m : MoodleCourseModule) (a b : Nat) :
    (moduleRows sid C m).countP (fun r => r.id == courseModuleNodeId a b)
      ≤ if (courseModuleNodeId sid m.id == courseModuleNodeId a b) = true
        then 1 else 0 := by
  rw [moduleRows_eq]
  by_cases hl : normalizeType m.modname = "label"
  · rw [if_pos hl]
    have : ¬(labelRowOf sid m).id == courseModuleNodeId a b := by
      refine ne_of_beq_ne (key_ne_of_tag ?_)
      rw [labelRowOf]
      show keyTag (labelKey sid m.id) ≠ _
      rw [keyTag_labelKey, keyTag_moduleKey]
      decide
    simp [List.countP_cons, this]
  · rw [if_neg hl, List.countP_cons]
    have htail : (if C.contains (courseModuleNodeId sid m.id) then []
        else moduleChildRows sid m).countP
        (fun r => r.id == courseModuleNodeId a b) = 0 := by
      by_cases hc : C.contains (courseModuleNodeId sid m.id)
      · rw [if_pos hc]; rfl
      · rw [if_neg hc]
        exact moduleChildRows_countP_modKey sid m a b
    rw [htail, Nat.zero_add]
    show (if ((moduleHeadRow sid C m).id == courseModuleNodeId a b) = true
      then 1 else 0) ≤ _
    exact le_of_eq rfl

theorem modulesRows_countP_modKey (sid : Nat) (C : List String) (a b : Nat) :
    ∀ ms : List MoodleCourseModule,
      (modulesRows sid C ms).countP (fun r => r.id == courseModuleNodeId a b)
        ≤ ms.countP (fun m' => courseModuleNodeId sid m'.id
            == courseModuleNodeId a b) := by
  intro ms
  induction ms with
  | nil => exact le_refl 0
  | cons m ms ih =>
    rw [modulesRows, List.countP_append, List.countP_cons]
    have := moduleRows_countP_modKey sid C m a b
    omega

theorem sectionRows_countP_modKey (idx : Nat) (C : List String)
    (s : MoodleCourseSection) (a b : Nat) :
    (sectionRows idx C s).countP (fun r => r.id == courseModuleNodeId a b)
      ≤ s.modules.countP (fun m' => courseModuleNodeId s.id m'.id
          == courseModuleNodeId a b) := by
  rw [sectionRows_eq, List.countP_cons]
  have hhead : ¬((sectionHeadRow idx C s).id == courseModuleNodeId a b) = true := by
    refine ne_of_beq_ne (key_ne_of_tag ?_)
    show keyTag (courseSectionNodeId s.id) ≠ _
    rw [keyTag_sectionKey, keyTag_moduleKey]
    decide
  rw [if_neg hhead]
  by_cases hc : C.contains (courseSectionNodeId s.id)
  · rw [if_pos hc]
    simp
  · rw [if_neg hc, sectionChildRows, List.countP_append]
    have h1 : (let sm := stripHtml s.summary
        if sm = "" then ([] : List CourseTreeRow)
        else [⟨summaryKey s.id, .summaryKind, 1, sm, "🗒", false, false,
          some (courseSectionNodeId s.id)⟩]).countP
        (fun r => r.id == courseModuleNodeId a b) = 0 := by
      rw [List.countP_eq_zero]
      intro r hm
      by_cases hs : stripHtml s.summary = ""
      · rw [if_pos hs] at hm
        exact absurd hm (List.not_mem_nil _)
      · rw [if_neg hs] at hm
        rw [List.mem_singleton.mp hm]
        refine ne_of_beq_ne (key_ne_of_tag ?_)
        rw [keyTag_summaryKey, keyTag_moduleKey]
        decide
    have h2 : (if s.modules.isEmpty then
        [⟨sectionEmptyKey s.id, .summaryKind, 1,
          "(No activities in this section)", "•", false, false,
          some (courseSectionNodeId s.id)⟩]
        else modulesRows s.id C s.modules).countP
        (fun r => r.id == courseModuleNodeId a b)
        ≤ s.modules.countP (fun m' => courseModuleNodeId s.id m'.id
            == courseModuleNodeId a b) := by
      by_cases hm : s.modules.isEmpty
      · rw [if_pos hm, List.countP_cons]
        have : ¬(sectionEmptyKey s.id == courseModuleNodeId a b) = true := by
          refine ne_of_beq_ne (key_ne_of_tag ?_)
          rw [keyTag_sectionEmptyKey, keyTag_moduleKey]
          decide
        simp [this]
      · rw [if_neg hm]
        exact modulesRows_countP_modKey s.id C a b s.modules
    omega

theorem modules_indicator_le_one (s : MoodleCourseSection) (a b : Nat)
    (hmod : (s.modules.map (·.id)).Nodup) :
    s.modules.countP (fun m' => courseModuleNodeId s.id m'.id
        == courseModuleNodeId a b) ≤ 1 := by
  by_cases hsa : s.id = a
  · have : s.modules.countP (fun m' => courseModuleNodeId s.id m'.id
        == courseModuleNodeId a b) = s.modules.countP (fun m' => m'.id == b) := by
      apply List.countP_congr
      intro m' _
      constructor
      · intro he
        exact beq_iff_eq.mpr ((moduleKey_inj (beq_iff_eq.mp he)).2)
      · intro he
        exact beq_iff_eq.mpr (by rw [hsa, beq_iff_eq.mp he])
    rw [this]
    have hcount : s.modules.countP (fun m' => m'.id == b)
        = (s.modules.map (·.id)).count b := by
      induction s.modules with
      | nil => rfl
      | cons m ms ih => rw [List.countP_cons, List.map_cons, List.count_cons, ih]
    rw [hcount]
    exact List.nodup_iff_count_le_one.mp hmod b
  · have : s.modules.countP (fun m' => courseModuleNodeId s.id m'.id
        == courseModuleNodeId a b) = 0 := by
      rw [List.countP_eq_zero]
      intro m' _
      exact fun he => hsa (moduleKey_inj (beq_iff_eq.mp he)).1
    omega

theorem sectionsRows_countP_modKey_zero (C : List String) (a b : Nat) :
    ∀ (S : List MoodleCourseSection) (idx : Nat), (∀ s ∈ S, s.id ≠ a) →
      (sectionsRows C idx S).countP (fun r => r.id == courseModuleNodeId a b)
        = 0 := by
  intro S
  induction S with
  | nil => intro idx _; rfl
  | cons s rest ih =>
    intro idx hne
    rw [sectionsRows, List.countP_append,
      ih (idx + 1) (fun s' hs' => hne s' (List.mem_cons_of_mem s hs'))]
    have hs := sectionRows_countP_modKey idx C s a b
    have hz : s.modules.countP (fun m' => courseModuleNodeId s.id m'.id
        == courseModuleNodeId a b) = 0 := by
      rw [List.countP_eq_zero]
      intro m' _
      exact fun he =>
        hne s (List.mem_cons_self s rest) (moduleKey_inj (beq_iff_eq.mp he)).1
    omega

theorem sectionsRows_countP_modKey_le_one (C : List String) (a b : Nat) :
    ∀ (S : List MoodleCourseSection) (idx : Nat), (S.map (·.id)).Nodup →
      (∀ s ∈ S, (s.modules.map (·.id)).Nodup) →
      (sectionsRows C idx S).countP (fun r => r.id == courseModuleNodeId a b)
        ≤ 1 := by
  intro S
  induction S with
  | nil => intro idx _ _; exact Nat.zero_le 1
  | cons s rest ih =>
    intro idx hS hM
    rw [sectionsRows, List.countP_append]
    rw [List.map_cons, List.nodup_cons] at hS
    by_cases hsa : s.id = a
    · have hrest : (sectionsRows C (idx + 1) rest).countP
          (fun r => r.id == courseModuleNodeId a b) = 0 := by
        refine sectionsRows_countP_modKey_zero C a b rest (idx + 1) ?_
        intro s' hs' he
        exact hS.1 (by rw [hsa, ← he]; exact List.mem_map.mpr ⟨s', hs', rfl⟩)
      have hblock := le_trans (sectionRows_countP_modKey idx C s a b)
        (modules_indicator_le_one s a b (hM s (List.mem_cons_self s rest)))
      omega
    · have hblock : (sectionRows idx C s).countP
          (fun r => r.id == courseModuleNodeId a b) = 0 := by
        have h1 := sectionRows_countP_modKey idx C s a b
        have h2 : s.modules.countP (fun m' => courseModuleNodeId s.id m'.id
            == courseModuleNodeId a b) = 0 := by
          rw [List.countP_eq_zero]
          intro m' _
          exact fun he => hsa (moduleKey_inj (beq_iff_eq.mp he)).1
        omega
      have hrest := ih (idx + 1) hS.2
        (fun s' hs' => hM s' (List.mem_cons_of_mem s hs'))
      omega

theorem build_countP_modKey_le_one (S : List MoodleCourseSection)
    (C : List String) (a b : Nat) (hS : (S.map (·.id)).Nodup)
    (hM : ∀ s ∈ S, (s.modules.map (·.id)).Nodup) :
    (buildCourseTreeRows S C).countP (fun r => r.id == courseModuleNodeId a b)
      ≤ 1 := by
  rw [buildCourseTreeRows]
  by_cases he : S.isEmpty
  · rw [if_pos he]
    have : ¬(emptyPlaceholderRow.id == courseModuleNodeId a b) = true := by
      refine ne_of_beq_ne (key_ne_of_tag ?_)
      rw [keyTag_moduleKey]
      decide
    simp [List.countP_cons, this]
  · rw [if_neg he]
    exact sectionsRows_countP_modKey_le_one C a b S 0 hS hM

/-- Claim C2 (amended): when distinct sections have distinct ids and the
activities within each section have distinct ids (as Moodle guarantees),
every flattened row that carries a `parentId` has it equal to the id of
exactly one row strictly earlier in the sequence — in particular no row
survives the collapse of an ancestor — and the only rows without a
`parentId` are section rows and the synthetic depth-0 placeholder with id
`empty`. -/
theorem claim_C2 (S : List MoodleCourseSection) (C : List String)
    (hS : (S.map (·.id)).Nodup)
    (hM : ∀ s ∈ S, (s.modules.map (·.id)).Nodup) :
    ∀ (k : Nat) (r : CourseTreeRow), (buildCourseTreeRows S C)[k]? = some r →
      (∀ p, r.parentId = some p →
        ((buildCourseTreeRows S C).take k).countP (fun r' => r'.id == p) = 1)
      ∧ (r.parentId = none →
        r.kind = .sectionKind ∨ (r.id = "empty" ∧ r.depth = 0)) := by
  intro k r hk
  constructor
  · intro p hp
    rcases okAt_buildCourseTreeRows S C k r p hk hp with habs | ⟨j, r', hjk, hj, hid⟩
    · exact absurd habs (List.not_mem_nil _)
    · have hmem : r' ∈ (buildCourseTreeRows S C).take k :=
        List.getElem?_mem (by rw [List.getElem?_take_of_lt hjk]; exact hj)
      have hpos : 0 < ((buildCourseTreeRows S C).take k).countP
          (fun r' => r'.id == p) :=
        List.countP_pos_iff.mpr ⟨r', hmem, by rw [hid]; exact beq_self_eq_true p⟩
      have hle : ((buildCourseTreeRows S C).take k).countP (fun r' => r'.id == p)
          ≤ (buildCourseTreeRows S C).countP (fun r' => r'.id == p) :=
        (List.take_sublist k _).countP_le _
      rcases parent_shape (List.getElem?_mem hk) hp with ⟨n, rfl⟩ | ⟨x, y, rfl⟩
      · have := build_countP_secKey_le_one S C n hS
        omega
      · have := build_countP_modKey_le_one S C x y hS hM
        omega
  · intro hp
    rcases mem_buildCourseTreeRows (List.getElem?_mem hk) with he | ⟨s, _, i, hr⟩
    · right
      rw [he]
      exact ⟨rfl, rfl⟩
    · rcases mem_sectionRows hr with ⟨hknd, _⟩ | ⟨_, _, _, hpar⟩ | ⟨m, _, hm⟩
      · exact Or.inl hknd
      · rw [hpar] at hp
        exact absurd hp (by simp)
      · rcases mem_moduleRows hm with ⟨_, _, _, _, hpar⟩ | ⟨_, _, _, _, hpar⟩
          | ⟨_, _, hpar⟩ | ⟨_, _, hpar⟩ | ⟨_, _, _, _, hpar⟩ <;> rw [hpar] at hp <;>
          exact absurd hp (by simp)

def witnessSection : MoodleCourseSection :=
  { id := 1,
    modules := [{ id := 2, name := "M", modname := some "resource" }] }

theorem claim_C2_witness :
    ((buildCourseTreeRows [witnessSection] []).take 1).countP
      (fun r' => r'.id == "section:1") = 1 := by
  have h := (claim_C2 [witnessSection] [] (by decide) (by decide) 1
    ⟨"module:1:2", .moduleKind, 1, "M", "📄", true, true, some "section:1"⟩
    (by decide)).1 "section:1" rfl
  exact h

def dupSection : MoodleCourseSection := { id := 1 }

/-- Claim C2, counterexample to the claim as written: for a section list in
which two sections share id 1, the fourth flattened row carries
`parentId = section:1`, which is the id of two earlier rows, not exactly
one. -/
theorem claim_C2_counterexample :
    ((buildCourseTreeRows [dupSection, dupSection] [])[3]?).map (·.parentId)
        = some (some "section:1")
      ∧ ((buildCourseTreeRows [dupSection, dupSection] []).take 3).countP
          (fun r' => r'.id == "section:1") = 2 := by
  constructor <;> decide

/-! ### NavigationState (Dashboard.tsx): selection and scroll reconciliation

The two effects that re-establish the selection invariants after every
row-sequence change.  JavaScript's `Math.max(0, a - b)` is natural
subtraction here. -/

/-- The effect clamping `courseSelectedIndex` to
`maxCourseRowIndex = Math.max(rows.length - 1, 0)`. -/
def reconcileSelectedIndex (previous len : Nat) : Nat :=
  min previous (len - 1)

/-- The effect recomputing `courseScrollOffset` from the (already clamped)
selected index; `maxScroll` is `Math.max(0, rows.length - contentRows)`. -/
def reconcileScrollOffset (previous sel len visible : Nat) : Nat :=
  let maxScroll := len - visible
  let clamped := min previous maxScroll
  if len = 0 then 0
  else if sel < clamped then sel
  else if clamped + visible ≤ sel then min ((sel + 1) - visible) maxScroll
  else clamped

/-- The fixed point reached after a row-sequence change: first the index
clamp, then the scroll reconciliation against the new index. -/
def reconcileSelection (prevSel prevScroll len visible : Nat) : Nat × Nat :=
  let sel := reconcileSelectedIndex prevSel len
  (sel, reconcileScrollOffset prevScroll sel len visible)

/-- Claim C8: after reconciliation the selection invariants hold — the
selected index is 0 on an empty list and otherwise below the row count, the
scroll offset is at most `rows.length - visibleRowCount` (truncated), and
the selection lies inside the visible window; in particular a selection at
index 5 of a 10-row list that shrinks to 3 rows ends at index 2 with scroll
offset 0. -/
theorem claim_C8 (prevSel prevScroll len visible : Nat) (hv : 1 ≤ visible) :
    ((len = 0 → (reconcileSelection prevSel prevScroll len visible).1 = 0
        ∧ (reconcileSelection prevSel prevScroll len visible).2 = 0)
      ∧ (0 < len → (reconcileSelection prevSel prevScroll len visible).1 < len)
      ∧ (reconcileSelection prevSel prevScroll len visible).2 ≤ len - visible
      ∧ (reconcileSelection prevSel prevScroll len visible).2
          ≤ (reconcileSelection prevSel prevScroll len visible).1
      ∧ (reconcileSelection prevSel prevScroll len visible).1
          < (reconcileSelection prevSel prevScroll len visible).2 + visible)
    ∧ (3 ≤ visible → reconcileSelection 5 prevScroll 3 visible = (2, 0)) := by
  constructor
  · simp only [reconcileSelection, reconcileSelectedIndex, reconcileScrollOffset]
    refine ⟨?_, ?_, ?_, ?_, ?_⟩ <;> (try split_ifs) <;> omega
  · intro h3
    simp only [reconcileSelection, reconcileSelectedIndex, reconcileScrollOffset]
    have h1 : min 5 (3 - 1) = 2 := by omega
    rw [h1]
    rw [if_neg (by omega : ¬(3 : Nat) = 0),
      if_neg (by omega : ¬(2 : Nat) < min prevScroll (3 - visible)),
      if_neg (by omega : ¬min prevScroll (3 - visible) + visible ≤ 2)]
    have : min prevScroll (3 - visible) = 0 := by omega
    rw [this]

theorem claim_C8_witness :
    ((3 = 0 → (reconcileSelection 5 2 3 4).1 = 0 ∧ (reconcileSelection 5 2 3 4).2 = 0)
      ∧ (0 < 3 → (reconcileSelection 5 2 3 4).1 < 3)
      ∧ (reconcileSelection 5 2 3 4).2 ≤ 3 - 4
      ∧ (reconcileSelection 5 2 3 4).2 ≤ (reconcileSelection 5 2 3 4).1
      ∧ (reconcileSelection 5 2 3 4).1 < (reconcileSelection 5 2 3 4).2 + 4)
    ∧ (3 ≤ 4 → reconcileSelection 5 2 3 4 = (2, 0)) :=
  claim_C8 5 2 3 4 (by decide)

/-! ### Jump to row id (Dashboard.tsx `applyCourseContentSelection`) -/

/-- The row lookup of the `Map` built from `allRows.map(row => [row.id, row])`:
later entries overwrite earlier ones. -/
def rowById (rows : List CourseTreeRow) (rowId : String) : Option CourseTreeRow :=
  rows.reverse.find? (fun r => r.id == rowId)

/-- The ids collected by the `while (current?.parentId)` walk: the ids of the
collapsible rows on the parent chain (resolved through `rowById`). -/
def collectExpandIds : Nat → List CourseTreeRow → CourseTreeRow → List String
  | 0, _, _ => []
  | fuel + 1, rows, cur =>
    match cur.parentId with
    | none => []
    | some pid =>
      match rowById rows pid with
      | none => []
      | some parent =>
        (if parent.collapsible then [parent.id] else [])
          ++ collectExpandIds fuel rows parent

/-- All ancestor ids on the parent chain (collapsible or not). -/
def ancestorIds : Nat → List CourseTreeRow → CourseTreeRow → List String
  | 0, _, _ => []
  | fuel + 1, rows, cur =>
    match cur.parentId with
    | none => []
    | some pid =>
      match rowById rows pid with
      | none => []
      | some parent => parent.id :: ancestorIds fuel rows parent

/-- `applyCourseContentSelection` from Dashboard.tsx, as a function from the
unfiltered row list, the collapsed-id list and the target id to the new
collapsed-id list and the pending-jump marker. -/
def applyCourseContentSelection (allRows : List CourseTreeRow)
    (collapsed : List String) (targetRowId : String) :
    List String × Option String :=
  match rowById allRows targetRowId with
  | none => (collapsed, none)
  | some target =>
    let rowsToExpand := collectExpandIds allRows.length allRows target
    (if rowsToExpand.isEmpty then collapsed
     else collapsed.filter (fun rowId => !(rowsToExpand.contains rowId)),
     some targetRowId)

/-- The pending-jump effect: on a flatten whose rows contain the pending id,
select the first row with that id and clear the marker; otherwise leave the
state unchanged. -/
def resolvePendingJump (rows : List CourseTreeRow) (pending : Option String)
    (sel : Nat) : Nat × Option String :=
  match pending with
  | none => (sel, none)
  | some pid =>
    match rows.findIdx? (fun r => r.id == pid) with
    | none => (sel, some pid)
    | some j => (j, none)

theorem rowById_id {rows : List CourseTreeRow} {rowId : String}
    {r : CourseTreeRow} (h : rowById rows rowId = some r) : r.id = rowId := by
  rw [rowById] at h
  have h2 := List.find?_some h
  exact beq_iff_eq.mp h2

theorem mem_collectExpandIds_of_ancestor :
    ∀ (fuel : Nat) (rows : List CourseTreeRow) (cur : CourseTreeRow)
      (p : String) (parent : CourseTreeRow),
      p ∈ ancestorIds fuel rows cur → rowById rows p = some parent →
      parent.collapsible = true → p ∈ collectExpandIds fuel rows cur := by
  intro fuel
  induction fuel with
  | zero => intro rows cur p parent h; exact absurd h (List.not_mem_nil _)
  | succ fuel ih =>
    intro rows cur p parent h hfind hcoll
    rw [ancestorIds] at h
    rw [collectExpandIds]
    cases hpid : cur.parentId with
    | none => rw [hpid] at h; exact absurd h (List.not_mem_nil _)
    | some pid =>
      rw [hpid] at h
      have h2 : p ∈ (match rowById rows pid with
          | none => []
          | some parent => parent.id :: ancestorIds fuel rows parent) := h
      show p ∈ (match rowById rows pid with
        | none => []
        | some parent =>
          (if parent.collapsible then [parent.id] else [])
            ++ collectExpandIds fuel rows parent)
      clear h
      cases hstep : rowById rows pid with
      | none => rw [hstep] at h2; exact absurd h2 (List.not_mem_nil _)
      | some step =>
        rw [hstep] at h2
        rcases List.mem_cons.mp h2 with h | h
        · have hpidstep : step.id = pid := rowById_id hstep
          have hpp : p = pid := by rw [h, hpidstep]
          have : parent = step := by
            rw [hpp] at hfind
            rw [hstep] at hfind
            exact (Option.some.inj hfind).symm
          rw [List.mem_append]
          left
          rw [this] at hcoll
          rw [if_pos hcoll]
          rw [h]
          exact List.mem_singleton_self _
        · rw [List.mem_append]
          exact Or.inr (ih rows step p parent h hfind hcoll)

/-- Claim C9: committing a finder result for a target id present in the
unfiltered flattened tree removes every collapsible ancestor on the
target's parent chain from the collapsed set, records the target id as the
pending jump, and the pending-jump effect, on the first flatten whose rows
contain that id, moves the selection to the target's index in that row
sequence and clears the marker. -/
theorem claim_C9 (S : List MoodleCourseSection) (C : List String) (t : String)
    (target : CourseTreeRow)
    (ht : rowById (buildCourseTreeRows S []) t = some target) :
    (applyCourseContentSelection (buildCourseTreeRows S []) C t).2 = some t
    ∧ (∀ p parent,
        p ∈ ancestorIds (buildCourseTreeRows S []).length
          (buildCourseTreeRows S []) target →
        rowById (buildCourseTreeRows S []) p = some parent →
        parent.collapsible = true →
        p ∉ (applyCourseContentSelection (buildCourseTreeRows S []) C t).1)
    ∧ (∀ (rows' : List CourseTreeRow) (sel : Nat), (∃ r' ∈ rows', r'.id = t) →
        ∃ j, (∃ hj : j < rows'.length, (rows'.get ⟨j, hj⟩).id = t)
          ∧ resolvePendingJump rows' (some t) sel = (j, none)) := by
  refine ⟨?_, ?_, ?_⟩
  · rw [applyCourseContentSelection, ht]
  · intro p parent hanc hfind hcoll
    have hmem := mem_collectExpandIds_of_ancestor
      (buildCourseTreeRows S []).length (buildCourseTreeRows S []) target
      p parent hanc hfind hcoll
    rw [applyCourseContentSelection, ht]
    intro hin
    simp only at hin
    by_cases hemp : (collectExpandIds (buildCourseTreeRows S []).length
        (buildCourseTreeRows S []) target).isEmpty
    · rw [if_pos hemp] at hin
      rw [List.isEmpty_iff.mp hemp] at hmem
      exact absurd hmem (List.not_mem_nil _)
    · rw [if_neg hemp] at hin
      have hfalse := (List.mem_filter.mp hin).2
      rw [Bool.not_eq_true'] at hfalse
      have hc : (collectExpandIds (buildCourseTreeRows S []).length
          (buildCourseTreeRows S []) target).contains p = true :=
        List.contains_iff_exists_mem_beq.mpr ⟨p, hmem, beq_self_eq_true p⟩
      rw [hfalse] at hc
      exact Bool.false_ne_true hc
  · intro rows' sel hex
    obtain ⟨r', hr', hid⟩ := hex
    have hex2 : ∃ x, x ∈ rows' ∧ (fun r => r.id == t) x :=
      ⟨r', hr', beq_iff_eq.mpr hid⟩
    have hj := List.findIdx?_eq_some_of_exists hex2
    obtain ⟨hlt, hpj, _⟩ := List.findIdx?_eq_some_iff_getElem.mp hj
    refine ⟨rows'.findIdx (fun r => r.id == t), ⟨hlt, ?_⟩, ?_⟩
    · exact beq_iff_eq.mp hpj
    · rw [resolvePendingJump, hj]

def jumpSection : MoodleCourseSection :=
  { id := 1,
    modules := [{ id := 2, name := "M", modname := some "resource",
                  contents := [{ filename := some "guide.pdf" }] }] }

theorem claim_C9_witness :
    (applyCourseContentSelection (buildCourseTreeRows [jumpSection] [])
        ["section:1", "module:1:2"] "content:1:2:0").2 = some "content:1:2:0"
    ∧ "module:1:2" ∉ (applyCourseContentSelection
        (buildCourseTreeRows [jumpSection] [])
        ["section:1", "module:1:2"] "content:1:2:0").1
    ∧ ∃ j, (∃ hj : j < (buildCourseTreeRows [jumpSection] []).length,
        ((buildCourseTreeRows [jumpSection] []).get ⟨j, hj⟩).id = "content:1:2:0")
      ∧ resolvePendingJump (buildCourseTreeRows [jumpSection] [])
          (some "content:1:2:0") 0 = (j, none) := by
  have h := claim_C9 [jumpSection] ["section:1", "module:1:2"] "content:1:2:0"
    ⟨"content:1:2:0", .contentItemKind, 2, "guide.pdf", "📄", false, false,
      some "module:1:2"⟩ (by decide)
  refine ⟨h.1, ?_, h.2.2 (buildCourseTreeRows [jumpSection] []) 0
    ⟨⟨"content:1:2:0", .contentItemKind, 2, "guide.pdf", "📄", false, false,
      some "module:1:2"⟩, by decide, rfl⟩⟩
  exact h.2.1 "module:1:2"
    ⟨"module:1:2", .moduleKind, 1, "M", "📄", true, true, some "section:1"⟩
    (by decide) (by decide) rfl

end MoodleTui
